import Mathlib

/-!
Verification development for the question-generation service.

The Python source is shallowly embedded: proportions become exact
rationals (`ℚ`), Python `int` becomes `Int`, Python `str` becomes
`List Char` where the parsing claims need character-level reasoning,
Python dicts become insertion-ordered association lists, and code that
can raise returns `Except String`.

Rational arithmetic is implemented on numerator/denominator through
`mkRat` (`qmul`, `qadd`, `qofInt`, `qdivII`), so that every embedded
function can be evaluated on concrete inputs inside proofs; the lemmas
`qmul_eq`, `qadd_eq`, `qofInt_eq`, `qdivII_eq` identify these with the
standard `ℚ` operations.
-/

namespace QGen

/-! ## Exact rational arithmetic -/

/-- Exact rational multiplication via `mkRat`. -/
def qmul (a b : ℚ) : ℚ := mkRat (a.num * b.num) (a.den * b.den)

/-- Exact embedding of an integer into `ℚ` via `mkRat`. -/
def qofInt (n : Int) : ℚ := mkRat n 1

/-- Exact rational addition via `mkRat`. -/
def qadd (a b : ℚ) : ℚ := mkRat (a.num * (b.den : Int) + b.num * (a.den : Int)) (a.den * b.den)

/-- Exact division of two integers as a rational (`count / total_for_type`).
Division by zero yields `0` here; the embedded code only divides by totals
that the claims assume positive. -/
def qdivII (a b : Int) : ℚ := if 0 ≤ b then mkRat a b.toNat else mkRat (-a) (-b).toNat

/-- Python's built-in `round` on a rational value, composed with `int(...)`:
round-half-to-even (banker's rounding), the language-level rounding used by
`int(round(...))` throughout the source.  `r` is the fractional part scaled
by the (positive) denominator, so `2 * r` against `den` compares the
fractional part against `1/2`. -/
def pyRound (q : ℚ) : Int :=
  let f : Int := ⌊q⌋
  let r : Int := q.num - f * (q.den : Int)
  if 2 * r < (q.den : Int) then f
  else if (q.den : Int) < 2 * r then f + 1
  else if f % 2 = 0 then f else f + 1

/-! ## The two allocators -/

/-- One cell of the global allocation built by `calculate_question_distribution`
(src/main/app.py): the dict key `f"{q_type}_{difficulty}_{blooms}"` together
with the stored config record. -/
structure QCell where
  key : String
  question_type : String
  difficulty : String
  blooms_level : String
  count : Int
deriving DecidableEq, Repr

/-- One cell of the per-type breakdown built inside `generate_mcqs` /
`generate_fill_in_blank` / `generate_true_false` (src/src/utils/utils_*.py):
the dict key `f"{difficulty}_{blooms}"` together with the stored record. -/
structure BCell where
  key : String
  difficulty : String
  blooms_level : String
  count : Int
deriving DecidableEq, Repr

/-- Python dict assignment `d[key] = cell` on an insertion-ordered dict:
replace in place when the key is present, append otherwise. -/
def dictInsertQ (dist : List QCell) (c : QCell) : List QCell :=
  if dist.any (fun x => x.key = c.key) then
    dist.map (fun x => if x.key = c.key then c else x)
  else dist ++ [c]

/-- Python dict assignment for the per-type breakdown dict. -/
def dictInsertB (dist : List BCell) (c : BCell) : List BCell :=
  if dist.any (fun x => x.key = c.key) then
    dist.map (fun x => if x.key = c.key then c else x)
  else dist ++ [c]

/-- `sum([item['count'] for item in distribution.values()])`. -/
def totalCountQ (dist : List QCell) : Int := (dist.map (fun c => c.count)).sum

/-- `sum([item['count'] for item in question_breakdown.values()])`. -/
def totalCountB (dist : List BCell) : Int := (dist.map (fun c => c.count)).sum

/-- `max(distribution.keys(), key=lambda k: distribution[k]['count'])`:
Python's `max` keeps the first maximal element in iteration order, and
raises `ValueError` on an empty sequence (modelled by `none`). -/
def maxByCountQ : List QCell → Option QCell
  | [] => none
  | c :: cs => some (cs.foldl (fun best x => if best.count < x.count then x else best) c)

/-- `max(question_breakdown.keys(), key=...)` for the per-type breakdown. -/
def maxByCountB : List BCell → Option BCell
  | [] => none
  | c :: cs => some (cs.foldl (fun best x => if best.count < x.count then x else best) c)

/-- `distribution[largest_key]['count'] += delta` — the dict holds the key at
one position, so updating the first matching entry is the dict update. -/
def bumpFirstQ : List QCell → String → Int → List QCell
  | [], _, _ => []
  | c :: cs, k, delta =>
      if c.key = k then { c with count := c.count + delta } :: cs
      else c :: bumpFirstQ cs k delta

/-- `question_breakdown[largest_key]['count'] += delta` for the per-type dict. -/
def bumpFirstB : List BCell → String → Int → List BCell
  | [], _, _ => []
  | c :: cs, k, delta =>
      if c.key = k then { c with count := c.count + delta } :: cs
      else c :: bumpFirstB cs k delta

/-- Embedding of `calculate_question_distribution` (src/main/app.py,
lines 85–117): nested rounding over the three dimensions
(`q_count = round(T*q_ratio)`, `d_count = round(q_count*d_ratio)`,
`b_count = round(d_count*b_ratio)`), cells with a non-positive rounded
count dropped, then the remainder added to the first largest surviving
cell.  When every cell was dropped and the remainder is non-zero, `max`
runs on an empty dict and raises `ValueError`, modelled as `Except.error`. -/
def calculate_question_distribution (total_questions : Int)
    (question_type_dist difficulty_dist blooms_dist : List (String × ℚ)) :
    Except String (List QCell) :=
  let distribution : List QCell :=
    question_type_dist.foldl (fun acc qp =>
      let q_count := pyRound (qmul (qofInt total_questions) qp.2)
      difficulty_dist.foldl (fun acc dp =>
        let d_count := pyRound (qmul (qofInt q_count) dp.2)
        blooms_dist.foldl (fun acc bp =>
          let b_count := pyRound (qmul (qofInt d_count) bp.2)
          if 0 < b_count then
            dictInsertQ acc ⟨qp.1 ++ "_" ++ dp.1 ++ "_" ++ bp.1, qp.1, dp.1, bp.1, b_count⟩
          else acc) acc) acc) []
  let total_calculated := totalCountQ distribution
  if total_calculated ≠ total_questions then
    match maxByCountQ distribution with
    | none => Except.error "max() arg is an empty sequence"
    | some largest =>
        Except.ok (bumpFirstQ distribution largest.key (total_questions - total_calculated))
  else Except.ok distribution

/-- Embedding of the `question_breakdown` allocation step shared by
`generate_mcqs` (src/src/utils/utils_mcq.py, lines 192–208),
`generate_fill_in_blank` (utils_fib.py, lines 185–200) and
`generate_true_false` (utils_tf.py, lines 180–195):
`count = int(round(num_questions * diff_ratio * blooms_ratio))` per cell,
zero cells dropped, remainder added to the first largest surviving cell;
`max` on the empty dict raises `ValueError`. -/
def question_breakdown (num_questions : Int)
    (difficulty_distribution blooms_taxonomy_distribution : List (String × ℚ)) :
    Except String (List BCell) :=
  let breakdown : List BCell :=
    difficulty_distribution.foldl (fun acc dp =>
      blooms_taxonomy_distribution.foldl (fun acc bp =>
        let count := pyRound (qmul (qmul (qofInt num_questions) dp.2) bp.2)
        if 0 < count then
          dictInsertB acc ⟨dp.1 ++ "_" ++ bp.1, dp.1, bp.1, count⟩
        else acc) acc) []
  let total_calculated := totalCountB breakdown
  if total_calculated ≠ num_questions then
    match maxByCountB breakdown with
    | none => Except.error "max() arg is an empty sequence"
    | some largest =>
        Except.ok (bumpFirstB breakdown largest.key (num_questions - total_calculated))
  else Except.ok breakdown

/-- Embedding of `create_question_sequence` (triplicated verbatim in
src/src/utils/utils_mcq.py, utils_fib.py and utils_tf.py, lines 25–37):
walk the breakdown dict in iteration order and, for each cell, run
`for _ in range(count): sequence.append((difficulty, blooms_level))`. -/
def create_question_sequence (question_breakdown : List BCell) : List (String × String) :=
  question_breakdown.foldl (fun sequence specs =>
    (List.range specs.count.toNat).foldl
      (fun s _ => s ++ [(specs.difficulty, specs.blooms_level)]) sequence) []

/-- The breakdown of the spec's SequenceBuilder example:
cells {(basic,remember):2, (advanced,analyze):3}. -/
def exampleBreakdown : List BCell :=
  [⟨"basic_remember", "basic", "remember", 2⟩,
   ⟨"advanced_analyze", "advanced", "analyze", 3⟩]

/-- The global allocation returned for the repository's default request
(total 10, types mcq/fib/tf at 0.4/0.3/0.3, difficulties 0.3/0.3/0.4,
blooms 0.3/0.4/0.3): nested rounding drops every basic/intermediate cell and
every fib/tf cell, and the remainder correction pushes 7 extra questions
onto the first largest cell. -/
def cDist10 : List QCell :=
  [⟨"mcq_advanced_remember", "mcq", "advanced", "remember", 8⟩,
   ⟨"mcq_advanced_apply", "mcq", "advanced", "apply", 1⟩,
   ⟨"mcq_advanced_analyze", "mcq", "advanced", "analyze", 1⟩]

/-- The per-type breakdown returned for 10 questions with difficulty
0.3/0.3/0.4 and blooms 0.3/0.4/0.3. -/
def bDist10 : List BCell :=
  [⟨"basic_remember", "basic", "remember", 1⟩,
   ⟨"basic_apply", "basic", "apply", 1⟩,
   ⟨"basic_analyze", "basic", "analyze", 1⟩,
   ⟨"intermediate_remember", "intermediate", "remember", 1⟩,
   ⟨"intermediate_apply", "intermediate", "apply", 1⟩,
   ⟨"intermediate_analyze", "intermediate", "analyze", 1⟩,
   ⟨"advanced_remember", "advanced", "remember", 1⟩,
   ⟨"advanced_apply", "advanced", "apply", 2⟩,
   ⟨"advanced_analyze", "advanced", "analyze", 1⟩]

/-- A three-record MCQ response used as concrete witness input. -/
def wRes : List Char :=
  ("QUESTION: q1 ANSWER: a1\nQUESTION: q2 ANSWER: a2\nQUESTION: q3 ANSWER: a3").toList

/-- The per-thread result tuple of `generate_single_question_type_sync`
(src/main/app.py, lines 186 and 193): `(question_type, file_name,
question_data, error)`; the function catches every exception and returns
the message in `error`. -/
structure SyncResult where
  question_type : String
  file_name : Option String
  question_data : Option String
  error : Option String
deriving DecidableEq, Repr

/-- `all_question_data[question_type] = question_data` on the
insertion-ordered dict. -/
def assocSetData (m : List (String × Option String)) (k : String) (v : Option String) :
    List (String × Option String) :=
  if m.any (fun p => p.1 = k) then m.map (fun p => if p.1 = k then (k, v) else p)
  else m ++ [(k, v)]

/-- The result-processing loop of `generate_questions` (src/main/app.py,
lines 314–325): walk the gathered results in order; re-raise any result
that is an exception (`Except.error` in the gather list); raise
`Exception(f"Error in {question_type}: {error}")` on a result carrying an
error; otherwise accumulate the file name and the per-type data.  An
`Except.error` return models the raised exception — no partial mapping is
returned. -/
def process_results :
    List (Except String SyncResult) → List (Option String) →
      List (String × Option String) →
      Except String (List (Option String) × List (String × Option String))
  | [], files_generated, all_question_data => Except.ok (files_generated, all_question_data)
  | Except.error e :: _, _, _ => Except.error e
  | Except.ok r :: rest, files_generated, all_question_data =>
      match r.error with
      | some msg => Except.error ("Error in " ++ r.question_type ++ ": " ++ msg)
      | none =>
          process_results rest (files_generated ++ [r.file_name])
            (assocSetData all_question_data r.question_type r.question_data)

/-- A gathered result is a failure when it is an exception or carries an
error message (`if error: raise ...`). -/
def resultFailed : Except String SyncResult → Bool
  | Except.error _ => true
  | Except.ok r => r.error.isSome

/-- The per-type re-derivation of `generate_questions` (src/main/app.py,
lines 275–290): `total_for_type = sum(config['count'])`, then for each
config of the type accumulate `count / total_for_type` into the local
difficulty and blooms distributions (`assocAdd` is the
`if key not in d: d[key] = 0; d[key] += v` pattern). -/
def assocAdd : List (String × ℚ) → String → ℚ → List (String × ℚ)
  | [], k, v => [(k, v)]
  | p :: rest, k, v => if p.1 = k then (p.1, p.2 + v) :: rest else p :: assocAdd rest k v

/-- `total_for_type = sum([config['count'] for config in configs])`. -/
def totalForType (configs : List QCell) : Int := (configs.map (fun c => c.count)).sum

/-- The reducible-arithmetic form of `assocAdd` used inside the embedded
code so that concrete runs evaluate (`qadd` instead of `+`). -/
def assocAddQ : List (String × ℚ) → String → ℚ → List (String × ℚ)
  | [], k, v => [(k, v)]
  | p :: rest, k, v => if p.1 = k then (p.1, qadd p.2 v) :: rest else p :: assocAddQ rest k v

/-- One iteration of the per-type re-derivation loop (src/main/app.py,
lines 279–290): add `count / total_for_type` to the difficulty entry and to
the blooms entry of the two local dicts. -/
def derive_step (T : Int) (acc : List (String × ℚ) × List (String × ℚ)) (config : QCell) :
    List (String × ℚ) × List (String × ℚ) :=
  (assocAddQ acc.1 config.difficulty (qdivII config.count T),
   assocAddQ acc.2 config.blooms_level (qdivII config.count T))

/-- `difficulty_dist_for_type` and `blooms_dist_for_type` built by the
orchestrator for one question type (src/main/app.py, lines 276–290). -/
def derive_dists (configs : List QCell) : List (String × ℚ) × List (String × ℚ) :=
  configs.foldl (derive_step (totalForType configs)) ([], [])

/-- `sum` of the proportions stored in a distribution dict. -/
def sumVals (m : List (String × ℚ)) : ℚ := (m.map (fun p => p.2)).sum

/-- `type_groups[q_type].append(config)` (src/main/app.py, lines 255–260). -/
def assocAppendCell : List (String × List QCell) → String → QCell → List (String × List QCell)
  | [], k, c => [(k, [c])]
  | p :: rest, k, c =>
      if p.1 = k then (p.1, p.2 ++ [c]) :: rest else p :: assocAppendCell rest k c

/-- Grouping of the global allocation by question type
(src/main/app.py, lines 254–260). -/
def type_groups (question_dist : List QCell) : List (String × List QCell) :=
  question_dist.foldl (fun groups config =>
    assocAppendCell groups config.question_type config) []

/-- Two gathered job results: a successful tf job followed by an mcq job
that failed inside its thread. -/
def wResults : List (Except String SyncResult) :=
  [Except.ok ⟨"tf", some "ch01_tf.json", some "data", none⟩,
   Except.ok ⟨"mcq", none, none, some "boom"⟩]

/-- A two-cell single-type group with positive counts. -/
def wConfigs : List QCell :=
  [⟨"mcq_basic_remember", "mcq", "basic", "remember", 2⟩,
   ⟨"mcq_advanced_analyze", "mcq", "advanced", "analyze", 3⟩]

/-- The grouped count of one `(difficulty, blooms_level)` cell inside a
(type-grouped) global allocation; cells absent from the group count 0. -/
def countQ (configs : List QCell) (d b : String) : Int :=
  ((configs.filter (fun c => c.difficulty == d && c.blooms_level == b)).map
    (fun c => c.count)).sum

/-- The count of one `(difficulty, blooms_level)` cell inside a per-type
breakdown. -/
def countB (cells : List BCell) (d b : String) : Int :=
  ((cells.filter (fun c => c.difficulty == d && c.blooms_level == b)).map
    (fun c => c.count)).sum

/-- The per-type re-application pipeline of the orchestrator: re-derive the
local distributions from a type's grouped cells (src/main/app.py, lines
275–290) and re-run the per-type Allocator with the type's total
(utils_*.py `question_breakdown`). -/
def rederive_breakdown (configs : List QCell) : Except String (List BCell) :=
  question_breakdown (totalForType configs) (derive_dists configs).1 (derive_dists configs).2

/-- The spec's reproduction property, stated from its words: re-applying
the Allocator at the per-type level reproduces the same per-cell counts as
the grouped global allocation. -/
def reproducesGroupedCounts (configs : List QCell) : Prop :=
  ∃ cells, rederive_breakdown configs = Except.ok cells
    ∧ ∀ d b : String, countB cells d b = countQ configs d b

/-- The claim's "up to rounding" reading: per-cell counts reproduced within
a slack of `slack`. -/
def reproducesWithin (slack : Nat) (configs : List QCell) : Prop :=
  ∃ cells, rederive_breakdown configs = Except.ok cells
    ∧ ∀ d b : String, (countB cells d b - countQ configs d b).natAbs ≤ slack

/-- A perfectly correlated (diagonal) single-type allocation: 5 questions
at (basic, remember) and 5 at (advanced, analyze). -/
def xConfigs : List QCell :=
  [⟨"mcq_basic_remember", "mcq", "basic", "remember", 5⟩,
   ⟨"mcq_advanced_analyze", "mcq", "advanced", "analyze", 5⟩]

/-- A product-form single-type allocation: one question per cell of the
2×2 label grid. -/
def pConfigs : List QCell :=
  [⟨"mcq_basic_remember", "mcq", "basic", "remember", 1⟩,
   ⟨"mcq_basic_analyze", "mcq", "basic", "analyze", 1⟩,
   ⟨"mcq_advanced_remember", "mcq", "advanced", "remember", 1⟩,
   ⟨"mcq_advanced_analyze", "mcq", "advanced", "analyze", 1⟩]

/-- The breakdown the re-application pipeline produces for `xConfigs`:
marginal products give 2.5 per cell, banker's rounding gives 2, and the
remainder 2 lands on the first cell. -/
def xRederived : List BCell :=
  [⟨"basic_remember", "basic", "remember", 4⟩,
   ⟨"basic_analyze", "basic", "analyze", 2⟩,
   ⟨"advanced_remember", "advanced", "remember", 2⟩,
   ⟨"advanced_analyze", "advanced", "analyze", 2⟩]

instance {ε α : Type _} [DecidableEq ε] [DecidableEq α] : DecidableEq (Except ε α) := fun a b =>
  match a, b with
  | .ok x, .ok y => decidable_of_iff (x = y) (by simp)
  | .error x, .error y => decidable_of_iff (x = y) (by simp)
  | .ok _, .error _ => isFalse (by simp)
  | .error _, .ok _ => isFalse (by simp)

/-! ## Python string primitives on `List Char` -/

/-- Python `s.strip()`: remove leading and trailing whitespace. -/
def pyStrip (s : List Char) : List Char :=
  ((s.dropWhile Char.isWhitespace).reverse.dropWhile Char.isWhitespace).reverse

/-- Locate the first occurrence of the non-empty separator `h :: t`:
`some (pre, post)` means the string is `pre ++ (h :: t) ++ post` with the
occurrence leftmost. -/
def splitFirst (h : Char) (t : List Char) : List Char → Option (List Char × List Char)
  | [] => none
  | c :: cs =>
      if (h :: t).isPrefixOf (c :: cs) then some ([], cs.drop t.length)
      else
        match splitFirst h t cs with
        | none => none
        | some (pre, post) => some (c :: pre, post)

/-- Python `sub in s` (substring containment). -/
def hasSub (sub s : List Char) : Bool :=
  match sub with
  | [] => true
  | h :: t => (splitFirst h t s).isSome

/-- Python `s.split(sep, 1)[1]` under a `sub in s` guard: the text after the
first occurrence of the separator. -/
def pySplitOnceAfter (sep s : List Char) : List Char :=
  match sep with
  | [] => s
  | h :: t =>
      match splitFirst h t s with
      | none => []
      | some (_, post) => post

/-- `pySplit` worker: repeatedly cut at the first occurrence; the fuel is
an upper bound on the number of cuts and never runs out as instantiated. -/
def pySplitGo (h : Char) (t : List Char) : Nat → List Char → List (List Char)
  | 0, s => [s]
  | fuel+1, s =>
      match splitFirst h t s with
      | none => [s]
      | some (pre, post) => pre :: pySplitGo h t fuel post

/-- Python `s.split(sep)` for a non-empty separator: split at every
non-overlapping occurrence, scanning left to right. -/
def pySplit (sep s : List Char) : List (List Char) :=
  match sep with
  | [] => [s]
  | h :: t => pySplitGo h t (s.length + 1) s

/-- Python `s.split(sep)[i]` (used under guards that make the index valid). -/
def pySplitAt (sep s : List Char) (i : Nat) : List Char :=
  (pySplit sep s).getD i []

/-! ## The three response parsers -/

def qMark : List Char := "QUESTION:".toList

def sMark : List Char := "STATEMENT:".toList

def aMark : List Char := "ANSWER:".toList

def eMark : List Char := "EXPLANATION:".toList

def d1Mark : List Char := "DISTRACTOR1:".toList

def d2Mark : List Char := "DISTRACTOR2:".toList

def d3Mark : List Char := "DISTRACTOR3:".toList

def dotSpace : List Char := ". ".toList

/-- One parsed MCQ record (the `question_obj` dict of `parse_mcq`). -/
structure MCQObj where
  question : List Char
  answer : List Char
  explanation : List Char
  distractors : List (List Char)
  difficulty : String
  blooms_level : String
  question_type : String
deriving DecidableEq, Repr

/-- One parsed true/false record (the `question_obj` dict of `parse_true_false`). -/
structure TFObj where
  statement : List Char
  answer : List Char
  explanation : List Char
  difficulty : String
  blooms_level : String
  question_type : String
deriving DecidableEq, Repr

/-- One parsed fill-in-blank record (the `question_obj` dict of
`parse_fill_in_blank`); `answer` is a list of sub-answers. -/
structure FIBObj where
  question : List Char
  answer : List (List Char)
  explanation : List Char
  difficulty : String
  blooms_level : String
  question_type : String
deriving DecidableEq, Repr

/-- The reassignment `block = "ANSWER:" + block.split("ANSWER:")[1]` under
its `in`-guard, shared verbatim by all three parsers. -/
def block_after_answer (block0 : List Char) : List Char :=
  if hasSub aMark block0 then aMark ++ pySplitAt aMark block0 1 else block0

/-- The second reassignment of `parse_mcq`,
`block = "EXPLANATION:" + block.split("EXPLANATION:")[1]`, under its guard. -/
def mcq_block_after_expl (block0 : List Char) : List Char :=
  let block1 := block_after_answer block0
  if hasSub aMark block1 && hasSub eMark block1 then eMark ++ pySplitAt eMark block1 1
  else block1

/-- Field extraction of `parse_mcq` for one block (utils_mcq.py, lines
49–86), before metadata assignment.  `block1` and `block2` are the two
reassignments `block = "ANSWER:" + ...` and `block = "EXPLANATION:" + ...`;
each field is written only under the source's `in`-guards, so a missing
marker leaves the empty default. -/
def extract_mcq (block0 : List Char) : MCQObj :=
  let question := if hasSub aMark block0 then pyStrip (pySplitAt aMark block0 0) else []
  let block1 := block_after_answer block0
  let answer := if hasSub aMark block1 && hasSub eMark block1
    then pyStrip (pySplitAt eMark (pySplitAt aMark block1 1) 0) else []
  let block2 := mcq_block_after_expl block0
  let explanation :=
    if hasSub eMark block2 then
      let explanation_text := pySplitAt eMark block2 1
      if hasSub d1Mark explanation_text then pyStrip (pySplitAt d1Mark explanation_text 0)
      else pyStrip explanation_text
    else []
  let distractors :=
    (if hasSub d1Mark block2 then
      [if hasSub d2Mark block2
       then pyStrip (pySplitAt d2Mark (pySplitAt d1Mark block2 1) 0)
       else pyStrip (pySplitAt d1Mark block2 1)]
     else [])
    ++ (if hasSub d2Mark block2 then
      [if hasSub d3Mark block2
       then pyStrip (pySplitAt d3Mark (pySplitAt d2Mark block2 1) 0)
       else pyStrip (pySplitAt d2Mark block2 1)]
     else [])
    ++ (if hasSub d3Mark block2 then [pyStrip (pySplitAt d3Mark block2 1)] else [])
  { question := question, answer := answer, explanation := explanation,
    distractors := distractors, difficulty := "", blooms_level := "", question_type := "mcq" }

/-- Field extraction of `parse_true_false` for one block (utils_tf.py,
lines 50–73): unlike `parse_mcq`, the block is reassigned only once. -/
def extract_tf (block0 : List Char) : TFObj :=
  let statement := if hasSub aMark block0 then pyStrip (pySplitAt aMark block0 0) else []
  let block1 := block_after_answer block0
  let answer :=
    if hasSub aMark block1 && hasSub eMark block1
    then pyStrip (pySplitAt eMark (pySplitAt aMark block1 1) 0)
    else if hasSub aMark block1 then pyStrip (pySplitAt aMark block1 1)
    else []
  let explanation := if hasSub eMark block1 then pyStrip (pySplitAt eMark block1 1) else []
  { statement := statement, answer := answer, explanation := explanation,
    difficulty := "", blooms_level := "", question_type := "tf" }

/-- One iteration of the numbered-answer loop of `parse_fill_in_blank`
(utils_fib.py, lines 66–74): strip the line; if its first character is a
digit and `". "` occurs anywhere in it, append
`line.split('. ', 1)[1].strip()`; else append the non-empty line whole;
skip empty lines. -/
def fib_line_step (acc : List (List Char)) (line0 : List Char) : List (List Char) :=
  let line := pyStrip line0
  if !line.isEmpty && ((line.headD ' ').isDigit && hasSub dotSpace line) then
    acc ++ [pyStrip (pySplitOnceAfter dotSpace line)]
  else if !line.isEmpty then acc ++ [line]
  else acc

/-- The element a single (already stripped) line contributes to the
fill-in-blank answer list, if any. -/
def fib_line_elem (line : List Char) : Option (List Char) :=
  if line.isEmpty then none
  else if (line.headD ' ').isDigit && hasSub dotSpace line then
    some (pyStrip (pySplitOnceAfter dotSpace line))
  else some line

/-- The numbered-answer splitting of `parse_fill_in_blank` (utils_fib.py,
lines 64–74): split the answer field on newlines and run `fib_line_step`
over the lines. -/
def fib_answer_lines (answer_text : List Char) : List (List Char) :=
  (pySplit ['\n'] answer_text).foldl fib_line_step []

/-- Field extraction of `parse_fill_in_blank` for one block (utils_fib.py,
lines 49–78). -/
def extract_fib (block0 : List Char) : FIBObj :=
  let question := if hasSub aMark block0 then pyStrip (pySplitAt aMark block0 0) else []
  let block1 := block_after_answer block0
  let answer :=
    if hasSub aMark block1 && hasSub eMark block1 then
      fib_answer_lines (pyStrip (pySplitAt eMark (pySplitAt aMark block1 1) 0))
    else []
  let explanation := if hasSub eMark block1 then pyStrip (pySplitAt eMark block1 1) else []
  { question := question, answer := answer, explanation := explanation,
    difficulty := "", blooms_level := "", question_type := "fib" }

/-- No non-empty suffix of `A` is a prefix of `E`: then an occurrence of
`E` inside `A ++ s` can never straddle the boundary. -/
def noOverlapB (A E : List Char) : Bool :=
  A.tails.all (fun a2 => a2.isEmpty || !(a2.isPrefixOf E))

/-- A fragment containing none of the field markers. -/
def wBlock : List Char := "What is the powerhouse of the cell".toList

/-- The claim's (and spec's) notion of a numbered-list line: a literal
`"<digit>. "` prefix.  Stated from the spec's words, to be compared with
the condition the code actually tests. -/
def numberedLeader (line : List Char) : Bool :=
  match line with
  | d :: '.' :: ' ' :: _ => d.isDigit
  | _ => false

/-- An all-default MCQ record, used only as the out-of-range default of
`List.getD` in statements about record `i`. -/
def mcqEmpty : MCQObj := ⟨[], [], [], [], "", "", "mcq"⟩

/-- An all-default true/false record, used only as the out-of-range default
of `List.getD`. -/
def tfEmpty : TFObj := ⟨[], [], [], "", "", "tf"⟩

/-- `[b.strip() for b in res.split(marker) if b.strip()]` — the fragment
list every parser iterates over. -/
def fragments (sep res : List Char) : List (List Char) :=
  ((pySplit sep res).filter (fun b => !(pyStrip b).isEmpty)).map pyStrip

/-- The per-fragment loop of `parse_mcq`, carrying `question_index`:
metadata comes from `question_sequence[question_index]` while the index is
in range, and the index advances only in that case. -/
def parse_mcq_loop (seq : List (String × String)) : List (List Char) → Nat → List MCQObj
  | [], _ => []
  | block :: rest, idx =>
      let obj := extract_mcq block
      if idx < seq.length then
        let pair := seq.getD idx ("", "")
        { obj with difficulty := pair.1, blooms_level := pair.2 }
          :: parse_mcq_loop seq rest (idx + 1)
      else obj :: parse_mcq_loop seq rest idx

/-- The per-fragment loop of `parse_true_false`. -/
def parse_tf_loop (seq : List (String × String)) : List (List Char) → Nat → List TFObj
  | [], _ => []
  | block :: rest, idx =>
      let obj := extract_tf block
      if idx < seq.length then
        let pair := seq.getD idx ("", "")
        { obj with difficulty := pair.1, blooms_level := pair.2 }
          :: parse_tf_loop seq rest (idx + 1)
      else obj :: parse_tf_loop seq rest idx

/-- The per-fragment loop of `parse_fill_in_blank`. -/
def parse_fib_loop (seq : List (String × String)) : List (List Char) → Nat → List FIBObj
  | [], _ => []
  | block :: rest, idx =>
      let obj := extract_fib block
      if idx < seq.length then
        let pair := seq.getD idx ("", "")
        { obj with difficulty := pair.1, blooms_level := pair.2 }
          :: parse_fib_loop seq rest (idx + 1)
      else obj :: parse_fib_loop seq rest idx

/-- Embedding of `parse_mcq` (utils_mcq.py, lines 39–95), up to the final
JSON dump: split on `"QUESTION:"`, keep the stripped non-empty fragments,
extract fields per fragment and attach metadata positionally from
`create_question_sequence question_breakdown`. -/
def parse_mcq (res : List Char) (question_breakdown : List BCell) : List MCQObj :=
  parse_mcq_loop (create_question_sequence question_breakdown) (fragments qMark res) 0

/-- Embedding of `parse_true_false` (utils_tf.py, lines 39–82), up to the
final JSON dump: identical structure with `"STATEMENT:"` as the boundary. -/
def parse_true_false (res : List Char) (question_breakdown : List BCell) : List TFObj :=
  parse_tf_loop (create_question_sequence question_breakdown) (fragments sMark res) 0

/-- Embedding of `parse_fill_in_blank` (utils_fib.py, lines 39–87), up to
the final JSON dump. -/
def parse_fill_in_blank (res : List Char) (question_breakdown : List BCell) : List FIBObj :=
  parse_fib_loop (create_question_sequence question_breakdown) (fragments qMark res) 0

/-! ## Arithmetic lemmas -/

theorem qmul_eq (a b : ℚ) : qmul a b = a * b := by
  rw [qmul, Rat.mkRat_eq_div]
  push_cast
  rw [← div_mul_div_comm, Rat.num_div_den, Rat.num_div_den]

theorem qofInt_eq (n : Int) : qofInt n = (n : ℚ) := by
  rw [qofInt, Rat.mkRat_eq_div]
  norm_num

theorem qadd_eq (a b : ℚ) : qadd a b = a + b := by
  have ha : ((a.den : ℚ)) ≠ 0 := Nat.cast_ne_zero.mpr a.den_nz
  have hb : ((b.den : ℚ)) ≠ 0 := Nat.cast_ne_zero.mpr b.den_nz
  have key : (a.num : ℚ)/(a.den : ℚ) + (b.num : ℚ)/(b.den : ℚ)
      = ((a.num : ℚ) * (b.den : ℚ) + (b.num : ℚ) * (a.den : ℚ))/((a.den : ℚ) * (b.den : ℚ)) := by
    rw [div_add_div _ _ ha hb]
    congr 1
    ring
  rw [qadd, Rat.mkRat_eq_div]
  push_cast
  rw [← key, Rat.num_div_den, Rat.num_div_den]

theorem qdivII_eq (a b : Int) : qdivII a b = (a : ℚ) / (b : ℚ) := by
  rw [qdivII]
  split
  · rename_i h
    rw [Rat.mkRat_eq_div]
    congr 1
    rw [← Int.cast_natCast]
    exact congrArg _ (Int.toNat_of_nonneg h)
  · rename_i h
    rw [Rat.mkRat_eq_div]
    have h2 : (0 : Int) ≤ -b := by omega
    have h3 : (((-b).toNat : ℕ) : ℚ) = ((-b : Int) : ℚ) := by
      rw [← Int.cast_natCast]
      exact congrArg _ (Int.toNat_of_nonneg h2)
    rw [h3]
    push_cast
    rw [neg_div_neg_eq]

theorem pyRound_intCast (n : Int) : pyRound ((n : Int) : ℚ) = n := by
  simp [pyRound, Int.floor_intCast, Rat.num_intCast, Rat.den_intCast]

/-! ## Allocator lemmas -/

theorem bumpFirstQ_total (dist : List QCell) (k : String) (delta : Int)
    (hk : k ∈ dist.map (fun c => c.key)) :
    totalCountQ (bumpFirstQ dist k delta) = totalCountQ dist + delta := by
  induction dist with
  | nil => simp at hk
  | cons c cs ih =>
      simp only [List.map_cons, List.mem_cons] at hk
      by_cases h : c.key = k
      · simp [bumpFirstQ, h, totalCountQ, List.map_cons, List.sum_cons]
        ring
      · rcases hk with hk | hk
        · exact absurd hk.symm h
        · simp only [bumpFirstQ, if_neg h]
          simp only [totalCountQ, List.map_cons, List.sum_cons] at *
          rw [ih hk]
          ring

theorem bumpFirstB_total (dist : List BCell) (k : String) (delta : Int)
    (hk : k ∈ dist.map (fun c => c.key)) :
    totalCountB (bumpFirstB dist k delta) = totalCountB dist + delta := by
  induction dist with
  | nil => simp at hk
  | cons c cs ih =>
      simp only [List.map_cons, List.mem_cons] at hk
      by_cases h : c.key = k
      · simp [bumpFirstB, h, totalCountB, List.map_cons, List.sum_cons]
        ring
      · rcases hk with hk | hk
        · exact absurd hk.symm h
        · simp only [bumpFirstB, if_neg h]
          simp only [totalCountB, List.map_cons, List.sum_cons] at *
          rw [ih hk]
          ring

theorem maxByCountQ_mem (dist : List QCell) (m : QCell) (h : maxByCountQ dist = some m) :
    m ∈ dist := by
  match dist with
  | [] => simp [maxByCountQ] at h
  | c :: cs =>
      simp only [maxByCountQ, Option.some.injEq] at h
      subst h
      have : ∀ (l : List QCell) (b : QCell),
          l.foldl (fun best x => if best.count < x.count then x else best) b ∈ b :: l := by
        intro l
        induction l with
        | nil => intro b; simp
        | cons x xs ih =>
            intro b
            simp only [List.foldl_cons]
            rcases List.mem_cons.mp (ih (if b.count < x.count then x else b)) with h1 | h1
            · rw [h1]
              by_cases hc : b.count < x.count
              · simp [hc]
              · simp [hc]
            · simp [h1]
      rcases List.mem_cons.mp (this cs c) with h1 | h1
      · simp [h1]
      · simp [h1]

theorem maxByCountB_mem (dist : List BCell) (m : BCell) (h : maxByCountB dist = some m) :
    m ∈ dist := by
  match dist with
  | [] => simp [maxByCountB] at h
  | c :: cs =>
      simp only [maxByCountB, Option.some.injEq] at h
      subst h
      have : ∀ (l : List BCell) (b : BCell),
          l.foldl (fun best x => if best.count < x.count then x else best) b ∈ b :: l := by
        intro l
        induction l with
        | nil => intro b; simp
        | cons x xs ih =>
            intro b
            simp only [List.foldl_cons]
            rcases List.mem_cons.mp (ih (if b.count < x.count then x else b)) with h1 | h1
            · rw [h1]
              by_cases hc : b.count < x.count
              · simp [hc]
              · simp [hc]
            · simp [h1]
      rcases List.mem_cons.mp (this cs c) with h1 | h1
      · simp [h1]
      · simp [h1]

theorem alloc_ok_total_q (T : Int) (q d b : List (String × ℚ)) (dist : List QCell)
    (h : calculate_question_distribution T q d b = Except.ok dist) :
    totalCountQ dist = T := by
  simp only [calculate_question_distribution] at h
  split at h
  · rename_i hne
    split at h
    · exact absurd h (by simp)
    · rename_i m hm
      simp only [Except.ok.injEq] at h
      subst h
      rw [bumpFirstQ_total]
      · omega
      · exact List.mem_map_of_mem (fun c => c.key) (maxByCountQ_mem _ m hm)
  · rename_i heq
    simp only [Except.ok.injEq] at h
    subst h
    omega

theorem alloc_ok_total_b (T : Int) (d b : List (String × ℚ)) (dist : List BCell)
    (h : question_breakdown T d b = Except.ok dist) :
    totalCountB dist = T := by
  simp only [question_breakdown] at h
  split at h
  · rename_i hne
    split at h
    · exact absurd h (by simp)
    · rename_i m hm
      simp only [Except.ok.injEq] at h
      subst h
      rw [bumpFirstB_total]
      · omega
      · exact List.mem_map_of_mem (fun c => c.key) (maxByCountB_mem _ m hm)
  · rename_i heq
    simp only [Except.ok.injEq] at h
    subst h
    omega

/-- C1 (amended).  Whenever the allocation call returns at all — i.e. at least
one rounded leaf count is positive, or the computed total already matches —
the returned counts sum to exactly the requested total, for both the global
three-dimensional allocator `calculate_question_distribution` and the
per-type two-dimensional `question_breakdown` allocator; no hypothesis on the
proportions is needed.  The original unconditional claim fails: see the
counterexample, where every leaf count rounds to zero and the call raises
instead of returning. -/
theorem claim_C1 :
    (∀ (T : Int) (q d b : List (String × ℚ)) (dist : List QCell),
        calculate_question_distribution T q d b = Except.ok dist → totalCountQ dist = T)
    ∧ (∀ (T : Int) (d b : List (String × ℚ)) (dist : List BCell),
        question_breakdown T d b = Except.ok dist → totalCountB dist = T) :=
  ⟨alloc_ok_total_q, alloc_ok_total_b⟩

/-- Witness for C1: both allocators, applied to the repository's default
request, return allocations summing to exactly 10. -/
theorem claim_C1_witness : totalCountQ cDist10 = 10 ∧ totalCountB bDist10 = 10 :=
  ⟨claim_C1.1 10 [("mcq", mkRat 2 5), ("fib", mkRat 3 10), ("tf", mkRat 3 10)]
      [("basic", mkRat 3 10), ("intermediate", mkRat 3 10), ("advanced", mkRat 2 5)]
      [("remember", mkRat 3 10), ("apply", mkRat 2 5), ("analyze", mkRat 3 10)]
      cDist10 (by decide),
   claim_C1.2 10 [("basic", mkRat 3 10), ("intermediate", mkRat 3 10), ("advanced", mkRat 2 5)]
      [("remember", mkRat 3 10), ("apply", mkRat 2 5), ("analyze", mkRat 3 10)]
      bDist10 (by decide)⟩

/-- Counterexample to C1 as stated: total 1 with both proportions 0.5/0.5
(each dimension sums to 1.0) makes every leaf count round to 0; the dict is
empty, the remainder is 1, and `max(question_breakdown.keys(), ...)` raises
`ValueError` — the allocator does not return counts at all. -/
theorem claim_C1_counterexample :
    question_breakdown 1 [("basic", mkRat 1 2), ("advanced", mkRat 1 2)]
        [("remember", mkRat 1 2), ("analyze", mkRat 1 2)]
      = Except.error "max() arg is an empty sequence" := by decide

/-- C2: the spec requires the `delta ≠ 0 and no cells exist` case to be a
no-op returning the empty allocation, but the code reaches
`max(distribution.keys(), ...)` with an empty dict and raises `ValueError`:
evaluating the embedded `calculate_question_distribution` at total 1 with
all proportions 0.5 (every leaf count rounds to 0) yields the error, not an
empty allocation. -/
theorem claim_C2_code_raises :
    calculate_question_distribution 1 [("mcq", mkRat 1 2), ("tf", mkRat 1 2)]
        [("basic", mkRat 1 2), ("advanced", mkRat 1 2)]
        [("remember", mkRat 1 2), ("analyze", mkRat 1 2)]
      = Except.error "max() arg is an empty sequence" := by decide

/-! ## SequenceBuilder -/

theorem range_foldl_append {α : Type _} (x : α) (n : Nat) :
    ∀ (s : List α), (List.range n).foldl (fun acc _ => acc ++ [x]) s = s ++ List.replicate n x := by
  induction n with
  | zero => intro s; simp
  | succ k ih =>
      intro s
      rw [List.range_succ, List.foldl_append, ih s, List.foldl_cons, List.foldl_nil,
        List.replicate_succ' k x, List.append_assoc]

theorem create_question_sequence_foldl (bd : List BCell) :
    ∀ (s : List (String × String)),
      bd.foldl (fun sequence specs =>
        (List.range specs.count.toNat).foldl
          (fun acc _ => acc ++ [(specs.difficulty, specs.blooms_level)]) sequence) s
      = s ++ (bd.map
          (fun c => List.replicate c.count.toNat (c.difficulty, c.blooms_level))).flatten := by
  induction bd with
  | nil => intro s; simp
  | cons c cs ih =>
      intro s
      rw [List.foldl_cons, range_foldl_append, ih, List.map_cons, List.flatten_cons,
        List.append_assoc]

/-- C3.  The sequence builder expands an allocation into a flat sequence:
each cell contributes its `(difficulty, blooms_level)` pair exactly `count`
times, consecutively, with cells in the dict's iteration order (the flatten
of per-cell replicated blocks); the total length is the sum of the counts;
and on the spec's example cells {(basic,remember):2, (advanced,analyze):3}
the result is the expected 5-element sequence. -/
theorem claim_C3 :
    (∀ bd : List BCell,
        create_question_sequence bd
          = (bd.map (fun c => List.replicate c.count.toNat (c.difficulty, c.blooms_level))).flatten)
    ∧ (∀ bd : List BCell,
        (create_question_sequence bd).length = (bd.map (fun c => c.count.toNat)).sum)
    ∧ create_question_sequence exampleBreakdown
        = [("basic", "remember"), ("basic", "remember"),
           ("advanced", "analyze"), ("advanced", "analyze"), ("advanced", "analyze")] := by
  refine ⟨fun bd => ?_, fun bd => ?_, by decide⟩
  · rw [create_question_sequence, create_question_sequence_foldl bd []]
    simp
  · rw [create_question_sequence, create_question_sequence_foldl bd []]
    simp only [List.nil_append, List.length_flatten, List.map_map]
    apply congrArg
    apply List.map_congr_left
    intro c _
    simp [Function.comp]

/-! ## Parser record counts (C9) -/

theorem parse_mcq_loop_length (seq : List (String × String)) :
    ∀ (frags : List (List Char)) (idx : Nat),
      (parse_mcq_loop seq frags idx).length = frags.length := by
  intro frags
  induction frags with
  | nil => intro idx; simp [parse_mcq_loop]
  | cons b rest ih =>
      intro idx
      by_cases hidx : idx < seq.length
      · simp [parse_mcq_loop, hidx, ih]
      · simp [parse_mcq_loop, hidx, ih]

theorem parse_tf_loop_length (seq : List (String × String)) :
    ∀ (frags : List (List Char)) (idx : Nat),
      (parse_tf_loop seq frags idx).length = frags.length := by
  intro frags
  induction frags with
  | nil => intro idx; simp [parse_tf_loop]
  | cons b rest ih =>
      intro idx
      by_cases hidx : idx < seq.length
      · simp [parse_tf_loop, hidx, ih]
      · simp [parse_tf_loop, hidx, ih]

theorem parse_fib_loop_length (seq : List (String × String)) :
    ∀ (frags : List (List Char)) (idx : Nat),
      (parse_fib_loop seq frags idx).length = frags.length := by
  intro frags
  induction frags with
  | nil => intro idx; simp [parse_fib_loop]
  | cons b rest ih =>
      intro idx
      by_cases hidx : idx < seq.length
      · simp [parse_fib_loop, hidx, ih]
      · simp [parse_fib_loop, hidx, ih]

/-- C9.  Each of the three parsers emits exactly one record per non-empty
(after stripping) fragment of the split on its record-boundary token,
whatever field markers the fragments contain and whatever breakdown is
requested: the output length equals the number of surviving fragments. -/
theorem claim_C9 :
    (∀ (res : List Char) (bd : List BCell),
        (parse_mcq res bd).length
          = ((pySplit qMark res).filter (fun b => !(pyStrip b).isEmpty)).length)
    ∧ (∀ (res : List Char) (bd : List BCell),
        (parse_true_false res bd).length
          = ((pySplit sMark res).filter (fun b => !(pyStrip b).isEmpty)).length)
    ∧ (∀ (res : List Char) (bd : List BCell),
        (parse_fill_in_blank res bd).length
          = ((pySplit qMark res).filter (fun b => !(pyStrip b).isEmpty)).length) := by
  refine ⟨fun res bd => ?_, fun res bd => ?_, fun res bd => ?_⟩
  · rw [parse_mcq, parse_mcq_loop_length, fragments, List.length_map]
  · rw [parse_true_false, parse_tf_loop_length, fragments, List.length_map]
  · rw [parse_fill_in_blank, parse_fib_loop_length, fragments, List.length_map]

/-! ## Positional metadata assignment (C4) -/

theorem extract_mcq_meta (b : List Char) :
    (extract_mcq b).difficulty = "" ∧ (extract_mcq b).blooms_level = "" := ⟨rfl, rfl⟩

theorem extract_tf_meta (b : List Char) :
    (extract_tf b).difficulty = "" ∧ (extract_tf b).blooms_level = "" := ⟨rfl, rfl⟩

theorem parse_mcq_loop_meta (seq : List (String × String)) :
    ∀ (frags : List (List Char)) (idx i : Nat), i < frags.length →
      (((parse_mcq_loop seq frags idx).getD i mcqEmpty).difficulty,
       ((parse_mcq_loop seq frags idx).getD i mcqEmpty).blooms_level)
      = if idx + i < seq.length then seq.getD (idx + i) ("", "") else ("", "") := by
  intro frags
  induction frags with
  | nil => intro idx i h; simp at h
  | cons b rest ih =>
      intro idx i h
      by_cases hidx : idx < seq.length
      · cases i with
        | zero =>
            simp only [parse_mcq_loop, if_pos hidx, List.getD_cons_zero, Nat.add_zero,
              if_pos hidx]
        | succ j =>
            simp only [parse_mcq_loop, if_pos hidx, List.getD_cons_succ]
            rw [ih (idx + 1) j (by simpa using h)]
            have harith : idx + 1 + j = idx + (j + 1) := by omega
            rw [harith]
      · cases i with
        | zero =>
            simp only [parse_mcq_loop, if_neg hidx, List.getD_cons_zero, Nat.add_zero,
              if_neg hidx]
            exact Prod.ext (extract_mcq_meta b).1 (extract_mcq_meta b).2
        | succ j =>
            simp only [parse_mcq_loop, if_neg hidx, List.getD_cons_succ]
            rw [ih idx j (by simpa using h)]
            have h1 : ¬ idx + j < seq.length := by omega
            have h2 : ¬ idx + (j + 1) < seq.length := by omega
            rw [if_neg h1, if_neg h2]

theorem parse_tf_loop_meta (seq : List (String × String)) :
    ∀ (frags : List (List Char)) (idx i : Nat), i < frags.length →
      (((parse_tf_loop seq frags idx).getD i tfEmpty).difficulty,
       ((parse_tf_loop seq frags idx).getD i tfEmpty).blooms_level)
      = if idx + i < seq.length then seq.getD (idx + i) ("", "") else ("", "") := by
  intro frags
  induction frags with
  | nil => intro idx i h; simp at h
  | cons b rest ih =>
      intro idx i h
      by_cases hidx : idx < seq.length
      · cases i with
        | zero =>
            simp only [parse_tf_loop, if_pos hidx, List.getD_cons_zero, Nat.add_zero,
              if_pos hidx]
        | succ j =>
            simp only [parse_tf_loop, if_pos hidx, List.getD_cons_succ]
            rw [ih (idx + 1) j (by simpa using h)]
            have harith : idx + 1 + j = idx + (j + 1) := by omega
            rw [harith]
      · cases i with
        | zero =>
            simp only [parse_tf_loop, if_neg hidx, List.getD_cons_zero, Nat.add_zero,
              if_neg hidx]
            exact Prod.ext (extract_tf_meta b).1 (extract_tf_meta b).2
        | succ j =>
            simp only [parse_tf_loop, if_neg hidx, List.getD_cons_succ]
            rw [ih idx j (by simpa using h)]
            have h1 : ¬ idx + j < seq.length := by omega
            have h2 : ¬ idx + (j + 1) < seq.length := by omega
            rw [if_neg h1, if_neg h2]

/-- C4.  For `parse_mcq` and `parse_true_false`: parsed record `i` receives
the difficulty and cognitive level stored at position `i` of the ordered
unit sequence (0-based, fragment order); any record whose index reaches or
exceeds the sequence length keeps the empty-string metadata; and the number
of records produced equals the number of parsed fragments regardless of the
requested breakdown, so a response with fewer recoverable records than
requested simply yields a shorter output, never an error. -/
theorem claim_C4 :
    (∀ (res : List Char) (bd : List BCell) (i : Nat),
        i < (parse_mcq res bd).length →
        (((parse_mcq res bd).getD i mcqEmpty).difficulty,
         ((parse_mcq res bd).getD i mcqEmpty).blooms_level)
        = if i < (create_question_sequence bd).length
          then (create_question_sequence bd).getD i ("", "") else ("", ""))
    ∧ (∀ (res : List Char) (bd : List BCell) (i : Nat),
        i < (parse_true_false res bd).length →
        (((parse_true_false res bd).getD i tfEmpty).difficulty,
         ((parse_true_false res bd).getD i tfEmpty).blooms_level)
        = if i < (create_question_sequence bd).length
          then (create_question_sequence bd).getD i ("", "") else ("", ""))
    ∧ (∀ (res : List Char) (bd : List BCell),
        (parse_mcq res bd).length = (fragments qMark res).length
        ∧ (parse_true_false res bd).length = (fragments sMark res).length) := by
  refine ⟨fun res bd i h => ?_, fun res bd i h => ?_, fun res bd => ?_⟩
  · have hlen : i < (fragments qMark res).length := by
      rw [parse_mcq, parse_mcq_loop_length] at h
      exact h
    have := parse_mcq_loop_meta (create_question_sequence bd) (fragments qMark res) 0 i hlen
    simpa [parse_mcq] using this
  · have hlen : i < (fragments sMark res).length := by
      rw [parse_true_false, parse_tf_loop_length] at h
      exact h
    have := parse_tf_loop_meta (create_question_sequence bd) (fragments sMark res) 0 i hlen
    simpa [parse_true_false] using this
  · exact ⟨parse_mcq_loop_length _ _ _, parse_tf_loop_length _ _ _⟩

/-! ## Substring reasoning for the silent-degradation property (C5) -/

theorem splitFirst_parts (h : Char) (t : List Char) :
    ∀ (s pre post : List Char), splitFirst h t s = some (pre, post) →
      s = pre ++ (h :: t) ++ post := by
  intro s
  induction s with
  | nil => intro pre post hsp; simp [splitFirst] at hsp
  | cons c cs ih =>
      intro pre post hsp
      simp only [splitFirst] at hsp
      split at hsp
      · rename_i hpre
        simp only [Option.some.injEq, Prod.mk.injEq] at hsp
        obtain ⟨hpre', hpost⟩ := hsp
        subst hpre'
        subst hpost
        obtain ⟨rem, hrem⟩ := List.isPrefixOf_iff_prefix.mp hpre
        obtain ⟨hh1, hh2⟩ := List.cons_eq_cons.mp (by simpa using hrem)
        simp only [List.nil_append]
        rw [← hh2, List.drop_left, hh1]
        simp
      · cases hm : splitFirst h t cs with
        | none => rw [hm] at hsp; simp at hsp
        | some pr =>
            obtain ⟨pre', post'⟩ := pr
            rw [hm] at hsp
            simp only [Option.some.injEq, Prod.mk.injEq] at hsp
            obtain ⟨hpre', hpost⟩ := hsp
            subst hpre'
            subst hpost
            rw [ih pre' post' hm]
            simp

theorem splitFirst_none_not (h : Char) (t : List Char) :
    ∀ s, splitFirst h t s = none → ¬ (h :: t) <:+: s := by
  intro s
  induction s with
  | nil =>
      intro _ hinf
      simp at hinf
  | cons c cs ih =>
      intro hsp hinf
      simp only [splitFirst] at hsp
      split at hsp
      · cases hsp
      · rename_i hpre
        rcases List.infix_cons_iff.mp hinf with hp | hi
        · exact hpre (List.isPrefixOf_iff_prefix.mpr hp)
        · cases hm : splitFirst h t cs with
          | none => exact ih hm hi
          | some pr => rw [hm] at hsp; cases hsp

theorem hasSub_iff (sub s : List Char) : hasSub sub s = true ↔ sub <:+: s := by
  cases sub with
  | nil => simp [hasSub, List.nil_infix]
  | cons h t =>
      simp only [hasSub, Option.isSome_iff_exists]
      constructor
      · rintro ⟨⟨pre, post⟩, hsp⟩
        rw [splitFirst_parts h t s pre post hsp]
        exact ⟨pre, post, rfl⟩
      · intro hinf
        cases hm : splitFirst h t s with
        | none => exact absurd hinf (splitFirst_none_not h t s hm)
        | some pr => exact ⟨pr, rfl⟩

theorem hasSub_mono_false (E seg s0 : List Char) (hseg : seg <:+: s0)
    (h0 : hasSub E s0 = false) : hasSub E seg = false := by
  cases hval : hasSub E seg with
  | false => rfl
  | true =>
      have h2 := ((hasSub_iff E seg).mp hval).trans hseg
      rw [(hasSub_iff E s0).mpr h2] at h0
      exact h0

theorem infix_append_cases {E A s : List Char} (h : E <:+: A ++ s) :
    E <:+: A ∨ E <:+: s ∨ ∃ a2, a2 ≠ [] ∧ a2 <:+ A ∧ a2 <+: E := by
  obtain ⟨u, v, huv⟩ := h
  rw [List.append_assoc] at huv
  by_cases h1 : u.length + E.length ≤ A.length
  · left
    have hA : A = List.take A.length (u ++ (E ++ v)) := by
      rw [huv, List.take_left]
    rw [List.take_append_eq_append_take, List.take_of_length_le (by omega),
      List.take_append_eq_append_take, List.take_of_length_le (by omega)] at hA
    exact ⟨u, List.take (A.length - u.length - E.length) v, by rw [List.append_assoc, ← hA]⟩
  · by_cases h2 : A.length ≤ u.length
    · right; left
      have hs : s = List.drop A.length (u ++ (E ++ v)) := by
        rw [huv, List.drop_left]
      rw [List.drop_append_eq_append_drop] at hs
      have hz : A.length - u.length = 0 := by omega
      rw [hz, List.drop_zero] at hs
      exact ⟨u.drop A.length, v, by rw [hs, List.append_assoc]⟩
    · right; right
      refine ⟨A.drop u.length, ?_, List.drop_suffix _ _, ?_⟩
      · intro hnil
        have hlen := congrArg List.length hnil
        simp only [List.length_drop, List.length_nil] at hlen
        omega
      · have hA : A = List.take A.length (u ++ (E ++ v)) := by
          rw [huv, List.take_left]
        rw [List.take_append_eq_append_take, List.take_of_length_le (by omega),
          List.take_append_eq_append_take] at hA
        have hv : List.take (A.length - u.length - E.length) v = [] := by
          have hz : A.length - u.length - E.length = 0 := by omega
          rw [hz, List.take_zero]
        rw [hv, List.append_nil] at hA
        have hdrop : A.drop u.length = List.take (A.length - u.length) E := by
          conv_lhs => rw [hA]
          exact List.drop_left u _
        rw [hdrop]
        exact List.take_prefix _ _

theorem hasSub_append_false (A E seg : List Char) (hov : noOverlapB A E = true)
    (hEA : hasSub E A = false) (hseg : hasSub E seg = false) :
    hasSub E (A ++ seg) = false := by
  cases hval : hasSub E (A ++ seg) with
  | false => rfl
  | true =>
      exfalso
      rcases infix_append_cases ((hasSub_iff _ _).mp hval) with hc | hc | ⟨a2, hne2, hsuf, hpre⟩
      · rw [(hasSub_iff _ _).mpr hc] at hEA
        simp at hEA
      · rw [(hasSub_iff _ _).mpr hc] at hseg
        simp at hseg
      · have hmem : a2 ∈ A.tails := (List.mem_tails _ _).mpr hsuf
        have hall := (List.all_eq_true.mp hov) a2 hmem
        have hpre' : a2.isPrefixOf E = true := List.isPrefixOf_iff_prefix.mpr hpre
        have hne3 : a2.isEmpty = false := by
          cases a2 with
          | nil => exact absurd rfl hne2
          | cons x xs => rfl
        rw [hne3, hpre'] at hall
        simp at hall

theorem pySplitGo_infixOf (h : Char) (t : List Char) :
    ∀ (fuel : Nat) (s x : List Char), x ∈ pySplitGo h t fuel s → x <:+: s := by
  intro fuel
  induction fuel with
  | zero =>
      intro s x hx
      simp only [pySplitGo, List.mem_singleton] at hx
      rw [hx]
  | succ f ih =>
      intro s x hx
      simp only [pySplitGo] at hx
      cases hm : splitFirst h t s with
      | none =>
          rw [hm] at hx
          simp only [List.mem_singleton] at hx
          rw [hx]
      | some pr =>
          obtain ⟨pre, post⟩ := pr
          rw [hm] at hx
          simp only [List.mem_cons] at hx
          have hparts := splitFirst_parts h t s pre post hm
          rcases hx with hx | hx
          · exact hx ▸ ⟨[], (h :: t) ++ post, by rw [hparts]; simp⟩
          · exact (ih post x hx).trans ⟨pre ++ (h :: t), [], by rw [hparts]; simp⟩

theorem pySplit_mem_infixOf (sep s x : List Char) (hx : x ∈ pySplit sep s) : x <:+: s := by
  cases sep with
  | nil =>
      simp only [pySplit, List.mem_singleton] at hx
      rw [hx]
  | cons h t => exact pySplitGo_infixOf h t _ s x hx

theorem pySplitAt_infixOf (sep s : List Char) (i : Nat) : pySplitAt sep s i <:+: s := by
  rw [pySplitAt]
  by_cases hi : i < (pySplit sep s).length
  · refine pySplit_mem_infixOf sep s _ ?_
    rw [List.getD_eq_get _ _ hi]
    exact List.get_mem _ _ _
  · rw [List.getD_eq_default _ _ (Nat.le_of_not_lt hi)]
    exact List.nil_infix

theorem block_after_answer_hasSub (block0 E : List Char)
    (hov : noOverlapB aMark E = true) (hEA : hasSub E aMark = false)
    (h0 : hasSub E block0 = false) :
    hasSub E (block_after_answer block0) = false := by
  rw [block_after_answer]
  split
  · exact hasSub_append_false aMark E _ hov hEA
      (hasSub_mono_false E _ block0 (pySplitAt_infixOf _ _ _) h0)
  · exact h0

theorem mcq_block_after_expl_hasSub (block0 E : List Char)
    (hovA : noOverlapB aMark E = true) (hovE : noOverlapB eMark E = true)
    (hEA : hasSub E aMark = false) (hEE : hasSub E eMark = false)
    (h0 : hasSub E block0 = false) :
    hasSub E (mcq_block_after_expl block0) = false := by
  have h1 := block_after_answer_hasSub block0 E hovA hEA h0
  rw [mcq_block_after_expl]
  split
  · exact hasSub_append_false eMark E _ hovE hEE
      (hasSub_mono_false E _ _ (pySplitAt_infixOf _ _ _) h1)
  · exact h1

theorem mcq_block_after_expl_hasSub_self (block0 : List Char)
    (h0 : hasSub eMark block0 = false) :
    hasSub eMark (mcq_block_after_expl block0) = false := by
  have h1 : hasSub eMark (block_after_answer block0) = false :=
    block_after_answer_hasSub block0 eMark (by decide) (by decide) h0
  rw [mcq_block_after_expl]
  split
  · rename_i hcond
    rw [h1] at hcond
    simp at hcond
  · exact h1

theorem extract_mcq_no_ans (block : List Char) (ha : hasSub aMark block = false) :
    (extract_mcq block).question = [] ∧ (extract_mcq block).answer = [] := by
  constructor <;> simp [extract_mcq, block_after_answer, ha]

theorem extract_mcq_no_expl (block : List Char) (hE : hasSub eMark block = false) :
    (extract_mcq block).explanation = [] := by
  have h2 := mcq_block_after_expl_hasSub_self block hE
  simp [extract_mcq, h2]

theorem extract_mcq_no_distractors (block : List Char)
    (h1 : hasSub d1Mark block = false) (h2 : hasSub d2Mark block = false)
    (h3 : hasSub d3Mark block = false) :
    (extract_mcq block).distractors = [] := by
  have g1 : hasSub d1Mark (mcq_block_after_expl block) = false :=
    mcq_block_after_expl_hasSub block d1Mark (by decide) (by decide) (by decide) (by decide) h1
  have g2 : hasSub d2Mark (mcq_block_after_expl block) = false :=
    mcq_block_after_expl_hasSub block d2Mark (by decide) (by decide) (by decide) (by decide) h2
  have g3 : hasSub d3Mark (mcq_block_after_expl block) = false :=
    mcq_block_after_expl_hasSub block d3Mark (by decide) (by decide) (by decide) (by decide) h3
  simp [extract_mcq, g1, g2, g3]

theorem extract_fib_no_ans (block : List Char) (ha : hasSub aMark block = false) :
    (extract_fib block).question = [] ∧ (extract_fib block).answer = [] := by
  constructor <;> simp [extract_fib, block_after_answer, ha]

theorem extract_fib_no_expl (block : List Char) (hE : hasSub eMark block = false) :
    (extract_fib block).explanation = [] := by
  have h1 : hasSub eMark (block_after_answer block) = false :=
    block_after_answer_hasSub block eMark (by decide) (by decide) hE
  simp [extract_fib, h1]

theorem extract_tf_no_ans (block : List Char) (ha : hasSub aMark block = false) :
    (extract_tf block).statement = [] ∧ (extract_tf block).answer = [] := by
  constructor <;> simp [extract_tf, block_after_answer, ha]

theorem extract_tf_no_expl (block : List Char) (hE : hasSub eMark block = false) :
    (extract_tf block).explanation = [] := by
  have h1 : hasSub eMark (block_after_answer block) = false :=
    block_after_answer_hasSub block eMark (by decide) (by decide) hE
  simp [extract_tf, h1]

/-- C5.  The parsers are total functions of the input text (they cannot
raise), and every field whose marker is absent from a fragment keeps its
empty default: with no `"ANSWER:"` in the fragment, the question/statement
and answer fields stay empty (empty string, or empty list for the
fill-in-blank answers); with no `"EXPLANATION:"`, the explanation stays
empty; with no `"DISTRACTORn:"` markers, the distractor list stays empty —
for all three record types. -/
theorem claim_C5 :
    (∀ block : List Char, hasSub aMark block = false →
        (extract_mcq block).question = [] ∧ (extract_mcq block).answer = []
        ∧ (extract_fib block).question = [] ∧ (extract_fib block).answer = []
        ∧ (extract_tf block).statement = [] ∧ (extract_tf block).answer = [])
    ∧ (∀ block : List Char, hasSub eMark block = false →
        (extract_mcq block).explanation = [] ∧ (extract_fib block).explanation = []
        ∧ (extract_tf block).explanation = [])
    ∧ (∀ block : List Char,
        hasSub d1Mark block = false → hasSub d2Mark block = false →
        hasSub d3Mark block = false → (extract_mcq block).distractors = []) := by
  refine ⟨fun block ha => ?_, fun block hE => ?_, fun block h1 h2 h3 => ?_⟩
  · obtain ⟨m1, m2⟩ := extract_mcq_no_ans block ha
    obtain ⟨f1, f2⟩ := extract_fib_no_ans block ha
    obtain ⟨t1, t2⟩ := extract_tf_no_ans block ha
    exact ⟨m1, m2, f1, f2, t1, t2⟩
  · exact ⟨extract_mcq_no_expl block hE, extract_fib_no_expl block hE,
      extract_tf_no_expl block hE⟩
  · exact extract_mcq_no_distractors block h1 h2 h3

/-- Witness for C5 at a fragment with no recognizable marker: every field
comes back as its empty default. -/
theorem claim_C5_witness :
    ((extract_mcq wBlock).question = [] ∧ (extract_mcq wBlock).answer = []
      ∧ (extract_fib wBlock).question = [] ∧ (extract_fib wBlock).answer = []
      ∧ (extract_tf wBlock).statement = [] ∧ (extract_tf wBlock).answer = [])
    ∧ ((extract_mcq wBlock).explanation = [] ∧ (extract_fib wBlock).explanation = []
      ∧ (extract_tf wBlock).explanation = [])
    ∧ (extract_mcq wBlock).distractors = [] :=
  ⟨claim_C5.1 wBlock (by decide), claim_C5.2.1 wBlock (by decide),
   claim_C5.2.2 wBlock (by decide) (by decide) (by decide)⟩

/-! ## Fill-in-blank answer-line splitting (C6) -/

theorem fib_line_step_eq (acc : List (List Char)) (line0 : List Char) :
    fib_line_step acc line0 = acc ++ (fib_line_elem (pyStrip line0)).toList := by
  rw [fib_line_step, fib_line_elem]
  by_cases h1 : (pyStrip line0).isEmpty = true
  · simp [h1]
  · have h1' : (pyStrip line0).isEmpty = false := by
      cases hv : (pyStrip line0).isEmpty
      · rfl
      · exact absurd hv h1
    by_cases h2 : (((pyStrip line0).headD ' ').isDigit
        && hasSub dotSpace (pyStrip line0)) = true
    · rw [h1', h2]
      simp
    · have h2' : (((pyStrip line0).headD ' ').isDigit
          && hasSub dotSpace (pyStrip line0)) = false := by
        cases hv : (((pyStrip line0).headD ' ').isDigit && hasSub dotSpace (pyStrip line0))
        · rfl
        · exact absurd hv h2
      rw [h1', h2']
      simp

theorem fib_answer_lines_foldl (lines : List (List Char)) :
    ∀ init : List (List Char),
      lines.foldl fib_line_step init
        = init ++ (lines.map pyStrip).filterMap fib_line_elem := by
  induction lines with
  | nil => intro init; simp
  | cons l ls ih =>
      intro init
      rw [List.foldl_cons, fib_line_step_eq, ih, List.map_cons, List.filterMap_cons]
      cases h : fib_line_elem (pyStrip l) with
      | none => simp [h]
      | some y => simp [h]

/-- C6 (amended).  The fill-in-blank answer field is split on newlines and
each line stripped; a line contributes the stripped text after the first
`". "` occurrence precisely when its **first character is a digit and
`". "` occurs anywhere in it** (`fib_line_elem`) — not only when it carries
a literal `"<digit>. "` prefix — and every other non-empty line is appended
whole (empty lines are dropped). -/
theorem claim_C6 :
    ∀ answer_text : List Char,
      fib_answer_lines answer_text
        = ((pySplit ['\n'] answer_text).map pyStrip).filterMap fib_line_elem := by
  intro answer_text
  rw [fib_answer_lines, fib_answer_lines_foldl]
  simp

/-- Counterexample to C6 as stated: the line `"1 apple. fruit"` bears no
`"<digit>. "` prefix, so by the claim it should be added whole; the code's
condition (first character a digit, `". "` anywhere) fires instead and the
contributed element is `"fruit"`, not the line. -/
theorem claim_C6_counterexample :
    numberedLeader "1 apple. fruit".toList = false
    ∧ fib_answer_lines "1 apple. fruit".toList = ["fruit".toList]
    ∧ "fruit".toList ≠ "1 apple. fruit".toList := by decide

/-- Witness for C4: on a three-record response with the example breakdown
(sequence basic/remember, basic/remember, advanced/analyze ×3), record 2
receives the third sequence entry. -/
theorem claim_C4_witness :
    (((parse_mcq wRes exampleBreakdown).getD 2 mcqEmpty).difficulty,
     ((parse_mcq wRes exampleBreakdown).getD 2 mcqEmpty).blooms_level)
      = ("advanced", "analyze") :=
  (claim_C4.1 wRes exampleBreakdown 2 (by decide)).trans (by decide)

/-! ## Orchestrator failure handling (C7) -/

theorem process_results_err :
    ∀ (results : List (Except String SyncResult))
      (files : List (Option String)) (data : List (String × Option String)),
      (∃ r ∈ results, resultFailed r = true) →
      ∃ msg, process_results results files data = Except.error msg := by
  intro results
  induction results with
  | nil =>
      rintro files data ⟨r, hr, _⟩
      simp at hr
  | cons x rest ih =>
      rintro files data ⟨r, hr, hf⟩
      cases x with
      | error e => exact ⟨e, rfl⟩
      | ok sr =>
          cases hE : sr.error with
          | some msg =>
              refine ⟨"Error in " ++ sr.question_type ++ ": " ++ msg, ?_⟩
              simp [process_results, hE]
          | none =>
              rcases List.mem_cons.mp hr with hr1 | hr2
              · rw [hr1] at hf
                simp [resultFailed, hE] at hf
              · have hrec := ih (files ++ [sr.file_name])
                  (assocSetData data sr.question_type sr.question_data) ⟨r, hr2, hf⟩
                simpa [process_results, hE] using hrec

/-- C7.  If any gathered per-type job result is a failure (an exception in
the gather list, or a result tuple carrying an error message), the
orchestrator's result-processing loop raises — returns `Except.error` —
and in particular never returns the mapping of the other types' results,
even when successful jobs preceded the failure. -/
theorem claim_C7 :
    ∀ results : List (Except String SyncResult),
      (∃ r ∈ results, resultFailed r = true) →
      (∃ msg, process_results results [] [] = Except.error msg)
      ∧ ∀ (files : List (Option String)) (data : List (String × Option String)),
          process_results results [] [] ≠ Except.ok (files, data) := by
  intro results hfail
  obtain ⟨msg, hmsg⟩ := process_results_err results [] [] hfail
  refine ⟨⟨msg, hmsg⟩, fun files data hok => ?_⟩
  rw [hmsg] at hok
  cases hok

/-- Witness for C7: one successful tf job and one failed mcq job — the loop
yields the error and no partial mapping. -/
theorem claim_C7_witness :
    (∃ msg, process_results wResults [] [] = Except.error msg)
    ∧ ∀ (files : List (Option String)) (data : List (String × Option String)),
        process_results wResults [] [] ≠ Except.ok (files, data) :=
  claim_C7 wResults ⟨Except.ok ⟨"mcq", none, none, some "boom"⟩, by decide, by decide⟩

/-! ## Re-derived local distributions sum to one (C10) -/

theorem assocAddQ_sumVals (m : List (String × ℚ)) (k : String) (v : ℚ) :
    sumVals (assocAddQ m k v) = sumVals m + v := by
  induction m with
  | nil => simp [assocAddQ, sumVals]
  | cons p rest ih =>
      by_cases h : p.1 = k
      · simp only [assocAddQ, if_pos h, sumVals, List.map_cons, List.sum_cons, qadd_eq]
        ring
      · simp only [assocAddQ, if_neg h, sumVals, List.map_cons, List.sum_cons] at ih ⊢
        rw [ih]
        ring

theorem derive_fold_sum (T : Int) :
    ∀ (l : List QCell) (acc : List (String × ℚ) × List (String × ℚ)),
      sumVals ((l.foldl (derive_step T) acc)).1
        = sumVals acc.1 + (l.map (fun c => qdivII c.count T)).sum
      ∧ sumVals ((l.foldl (derive_step T) acc)).2
        = sumVals acc.2 + (l.map (fun c => qdivII c.count T)).sum := by
  intro l
  induction l with
  | nil => intro acc; simp
  | cons c cs ih =>
      intro acc
      rw [List.foldl_cons]
      obtain ⟨ih1, ih2⟩ := ih (derive_step T acc c)
      constructor
      · rw [ih1]
        simp only [derive_step, assocAddQ_sumVals, List.map_cons, List.sum_cons]
        ring
      · rw [ih2]
        simp only [derive_step, assocAddQ_sumVals, List.map_cons, List.sum_cons]
        ring

theorem list_sum_div (l : List ℚ) (d : ℚ) :
    (l.map (fun x => x / d)).sum = l.sum / d := by
  induction l with
  | nil => simp
  | cons x xs ih => simp [ih, add_div]

theorem list_sum_intCast (l : List Int) :
    ((l.sum : Int) : ℚ) = (l.map (fun n : Int => (n : ℚ))).sum := by
  induction l with
  | nil => simp
  | cons x xs ih => simp only [List.map_cons, List.sum_cons, Int.cast_add, ih]

theorem derive_sumVals_one (configs : List QCell) (hT : 0 < totalForType configs) :
    sumVals (derive_dists configs).1 = 1 ∧ sumVals (derive_dists configs).2 = 1 := by
  have hne : ((totalForType configs : Int) : ℚ) ≠ 0 := by
    have : (0 : ℚ) < ((totalForType configs : Int) : ℚ) := by exact_mod_cast hT
    exact ne_of_gt this
  obtain ⟨h1, h2⟩ := derive_fold_sum (totalForType configs) configs ([], [])
  have hsum : (configs.map (fun c => qdivII c.count (totalForType configs))).sum = 1 := by
    have heq : (configs.map (fun c => qdivII c.count (totalForType configs)))
        = ((configs.map (fun c => c.count)).map (fun n : Int => (n : ℚ))).map
            (fun x => x / ((totalForType configs : Int) : ℚ)) := by
      rw [List.map_map, List.map_map]
      apply List.map_congr_left
      intro c _
      rw [qdivII_eq]
      rfl
    rw [heq, list_sum_div, ← list_sum_intCast]
    exact div_self hne
  constructor
  · rw [derive_dists, h1, hsum]
    simp [sumVals]
  · rw [derive_dists, h2, hsum]
    simp [sumVals]

/-- C10.  For a question type whose grouped cell counts have a positive
total, the orchestrator's re-derived local difficulty distribution and
local blooms distribution each sum to exactly 1 in exact arithmetic: every
cell contributes `count / total_for_type` to each dict, and the counts sum
to the total. -/
theorem claim_C10 (configs : List QCell) (hT : 0 < totalForType configs) :
    sumVals (derive_dists configs).1 = 1 ∧ sumVals (derive_dists configs).2 = 1 :=
  derive_sumVals_one configs hT

/-- Witness for C10: for the two-cell group with counts 2 and 3, both
re-derived distributions sum to exactly 1. -/
theorem claim_C10_witness :
    sumVals (derive_dists wConfigs).1 = 1 ∧ sumVals (derive_dists wConfigs).2 = 1 :=
  claim_C10 wConfigs (by decide)

/-! ## Re-derivation and re-application (C8) -/

theorem pyRound_qofInt (n : Int) : pyRound (qofInt n) = n := by
  rw [qofInt_eq]
  exact pyRound_intCast n

theorem dictInsertB_notin (acc : List BCell) (c : BCell)
    (h : c.key ∉ acc.map (fun x => x.key)) : dictInsertB acc c = acc ++ [c] := by
  rw [dictInsertB, if_neg]
  intro hany
  rw [List.any_eq_true] at hany
  obtain ⟨x, hx, hxk⟩ := hany
  simp only [decide_eq_true_eq] at hxk
  exact h (hxk ▸ List.mem_map_of_mem (fun x => x.key) hx)

theorem inner_fold (T : Int) (dp : String × ℚ) (B : List (String × ℚ)) :
    ∀ acc : List BCell,
      (∀ q ∈ B, 0 < pyRound (qmul (qmul (qofInt T) dp.2) q.2)) →
      ((acc.map (fun c => c.key)) ++ B.map (fun q => dp.1 ++ "_" ++ q.1)).Nodup →
      B.foldl (fun acc bp =>
          let count := pyRound (qmul (qmul (qofInt T) dp.2) bp.2)
          if 0 < count then dictInsertB acc ⟨dp.1 ++ "_" ++ bp.1, dp.1, bp.1, count⟩
          else acc) acc
        = acc ++ B.map (fun bp =>
            (⟨dp.1 ++ "_" ++ bp.1, dp.1, bp.1,
              pyRound (qmul (qmul (qofInt T) dp.2) bp.2)⟩ : BCell)) := by
  induction B with
  | nil => intro acc _ _; simp
  | cons q qs ih =>
      intro acc hpos hnd
      rw [List.foldl_cons]
      have hq := hpos q (List.mem_cons_self q qs)
      simp only [if_pos hq]
      have hknotin : (dp.1 ++ "_" ++ q.1) ∉ acc.map (fun c => c.key) := by
        rw [List.map_cons] at hnd
        rw [List.nodup_append] at hnd
        intro hmem
        exact hnd.2.2 hmem (List.mem_cons_self _ _)
      rw [dictInsertB_notin acc _ hknotin]
      have hnd' : (((acc ++ [(⟨dp.1 ++ "_" ++ q.1, dp.1, q.1,
          pyRound (qmul (qmul (qofInt T) dp.2) q.2)⟩ : BCell)]).map (fun c => c.key))
            ++ qs.map (fun q => dp.1 ++ "_" ++ q.1)).Nodup := by
        rw [List.map_append]
        rw [List.append_assoc]
        simpa using hnd
      rw [ih (acc ++ [_]) (fun q hq => hpos q (List.mem_cons_of_mem _ hq)) hnd']
      simp

theorem outer_fold (T : Int) (B : List (String × ℚ)) :
    ∀ (D : List (String × ℚ)) (acc : List BCell),
      (∀ p ∈ D, ∀ q ∈ B, 0 < pyRound (qmul (qmul (qofInt T) p.2) q.2)) →
      (((acc.map (fun c => c.key))
          ++ D.flatMap (fun p => B.map (fun q => p.1 ++ "_" ++ q.1))).Nodup) →
      D.foldl (fun acc dp =>
          B.foldl (fun acc bp =>
            let count := pyRound (qmul (qmul (qofInt T) dp.2) bp.2)
            if 0 < count then dictInsertB acc ⟨dp.1 ++ "_" ++ bp.1, dp.1, bp.1, count⟩
            else acc) acc) acc
        = acc ++ D.flatMap (fun p => B.map (fun q =>
            (⟨p.1 ++ "_" ++ q.1, p.1, q.1,
              pyRound (qmul (qmul (qofInt T) p.2) q.2)⟩ : BCell))) := by
  intro D
  induction D with
  | nil => intro acc _ _; simp
  | cons p ps ih =>
      intro acc hpos hnd
      rw [List.foldl_cons]
      rw [List.flatMap_cons] at hnd
      have hnd1 : ((acc.map (fun c => c.key)) ++ B.map (fun q => p.1 ++ "_" ++ q.1)).Nodup := by
        rw [← List.append_assoc] at hnd
        rw [List.nodup_append] at hnd
        exact hnd.1
      rw [inner_fold T p B acc (hpos p (List.mem_cons_self p ps)) hnd1]
      have hnd2 : (((acc ++ B.map (fun bp =>
            (⟨p.1 ++ "_" ++ bp.1, p.1, bp.1,
              pyRound (qmul (qmul (qofInt T) p.2) bp.2)⟩ : BCell))).map (fun c => c.key))
          ++ ps.flatMap (fun p => B.map (fun q => p.1 ++ "_" ++ q.1))).Nodup := by
        rw [List.map_append, List.map_map, List.append_assoc]
        have hmapeq : B.map ((fun c : BCell => c.key) ∘ (fun bp =>
            (⟨p.1 ++ "_" ++ bp.1, p.1, bp.1,
              pyRound (qmul (qmul (qofInt T) p.2) bp.2)⟩ : BCell)))
            = B.map (fun q => p.1 ++ "_" ++ q.1) := rfl
        rw [hmapeq]
        exact hnd
      rw [ih _ (fun pp hpp => hpos pp (List.mem_cons_of_mem _ hpp)) hnd2]
      rw [List.flatMap_cons, List.append_assoc]

/-- Counterexample to C8 as stated.  For the diagonal single-type
allocation {(basic,remember):5, (advanced,analyze):5}, grouping and
re-deriving marginal distributions (0.5/0.5 each) and re-applying the
Allocator with the type's total 10 produces {(basic,remember):4, and 2 for
each other cell}: at (advanced,analyze) the re-derived count 2 differs from
the grouped count 5 by 3, which no per-cell rounding slack of up to 2 can
explain — the re-derivation loses the joint correlation. -/
theorem claim_C8_counterexample :
    type_groups xConfigs = [("mcq", xConfigs)] ∧ ¬ reproducesWithin 2 xConfigs := by
  constructor
  · decide
  · rintro ⟨cells, hok, hall⟩
    have hre : rederive_breakdown xConfigs = Except.ok xRederived := by decide
    rw [hre] at hok
    injection hok with hc
    subst hc
    have h2 := hall "advanced" "analyze"
    revert h2
    decide

theorem assocAddQ_keys (m : List (String × ℚ)) (k : String) (v : ℚ) :
    (assocAddQ m k v).map Prod.fst
      = if k ∈ m.map Prod.fst then m.map Prod.fst else m.map Prod.fst ++ [k] := by
  induction m with
  | nil => simp [assocAddQ]
  | cons p rest ih =>
      by_cases h : p.1 = k
      · simp [assocAddQ, h]
      · have hcond : (k ∈ (p :: rest).map Prod.fst) ↔ k ∈ rest.map Prod.fst := by
          simp only [List.map_cons, List.mem_cons]
          constructor
          · rintro (h1 | h1)
            · exact absurd h1.symm h
            · exact h1
          · exact Or.inr
        by_cases hk : k ∈ rest.map Prod.fst
        · rw [if_pos (hcond.mpr hk)]
          simp only [assocAddQ, if_neg h, List.map_cons, ih, if_pos hk]
        · rw [if_neg (fun hx => hk (hcond.mp hx))]
          simp only [assocAddQ, if_neg h, List.map_cons, ih, if_neg hk, List.cons_append]

theorem assocAddQ_keys_nodup (m : List (String × ℚ)) (k : String) (v : ℚ)
    (h : (m.map Prod.fst).Nodup) : ((assocAddQ m k v).map Prod.fst).Nodup := by
  rw [assocAddQ_keys]
  split
  · exact h
  · rename_i hk
    rw [List.nodup_append]
    refine ⟨h, List.nodup_singleton k, ?_⟩
    intro a ha hb
    rw [List.mem_singleton] at hb
    exact hk (hb ▸ ha)

theorem assocAddQ_keys_mem (m : List (String × ℚ)) (k : String) (v : ℚ) (x : String)
    (h : x ∈ m.map Prod.fst) : x ∈ (assocAddQ m k v).map Prod.fst := by
  rw [assocAddQ_keys]
  split
  · exact h
  · exact List.mem_append_left _ h

theorem assocAddQ_keys_self (m : List (String × ℚ)) (k : String) (v : ℚ) :
    k ∈ (assocAddQ m k v).map Prod.fst := by
  rw [assocAddQ_keys]
  split
  · assumption
  · exact List.mem_append_right _ (List.mem_singleton_self k)

theorem derive_fold_nodup (T : Int) :
    ∀ (l : List QCell) (acc : List (String × ℚ) × List (String × ℚ)),
      (acc.1.map Prod.fst).Nodup → (acc.2.map Prod.fst).Nodup →
      ((l.foldl (derive_step T) acc).1.map Prod.fst).Nodup
      ∧ ((l.foldl (derive_step T) acc).2.map Prod.fst).Nodup := by
  intro l
  induction l with
  | nil => intro acc h1 h2; exact ⟨h1, h2⟩
  | cons c cs ih =>
      intro acc h1 h2
      rw [List.foldl_cons]
      exact ih (derive_step T acc c) (assocAddQ_keys_nodup _ _ _ h1)
        (assocAddQ_keys_nodup _ _ _ h2)

theorem derive_fold_mem (T : Int) :
    ∀ (l : List QCell) (acc : List (String × ℚ) × List (String × ℚ)) (x : String),
      (x ∈ acc.1.map Prod.fst → x ∈ (l.foldl (derive_step T) acc).1.map Prod.fst)
      ∧ (x ∈ acc.2.map Prod.fst → x ∈ (l.foldl (derive_step T) acc).2.map Prod.fst) := by
  intro l
  induction l with
  | nil => intro acc x; exact ⟨id, id⟩
  | cons c cs ih =>
      intro acc x
      rw [List.foldl_cons]
      exact ⟨fun hx => (ih (derive_step T acc c) x).1 (assocAddQ_keys_mem _ _ _ _ hx),
        fun hx => (ih (derive_step T acc c) x).2 (assocAddQ_keys_mem _ _ _ _ hx)⟩

theorem derive_fold_cover (T : Int) :
    ∀ (l : List QCell) (acc : List (String × ℚ) × List (String × ℚ)) (c : QCell), c ∈ l →
      c.difficulty ∈ (l.foldl (derive_step T) acc).1.map Prod.fst
      ∧ c.blooms_level ∈ (l.foldl (derive_step T) acc).2.map Prod.fst := by
  intro l
  induction l with
  | nil => intro acc c hc; simp at hc
  | cons d ds ih =>
      intro acc c hc
      rw [List.foldl_cons]
      rcases List.mem_cons.mp hc with hc1 | hc2
      · subst hc1
        constructor
        · exact (derive_fold_mem T ds (derive_step T acc c) c.difficulty).1
            (assocAddQ_keys_self _ _ _)
        · exact (derive_fold_mem T ds (derive_step T acc c) c.blooms_level).2
            (assocAddQ_keys_self _ _ _)
      · exact ih (derive_step T acc d) c hc2

theorem countB_nil (d b : String) : countB [] d b = 0 := rfl

theorem countB_cons (c : BCell) (rest : List BCell) (d b : String) :
    countB (c :: rest) d b
      = (if c.difficulty = d ∧ c.blooms_level = b then c.count else 0) + countB rest d b := by
  rw [countB, countB, List.filter_cons]
  by_cases h : c.difficulty = d ∧ c.blooms_level = b
  · have hb : (c.difficulty == d && c.blooms_level == b) = true := by
      rw [Bool.and_eq_true, beq_iff_eq, beq_iff_eq]
      exact h
    rw [if_pos hb, List.map_cons, List.sum_cons, if_pos h]
  · have hb : ¬ ((c.difficulty == d && c.blooms_level == b) = true) := by
      rw [Bool.and_eq_true, beq_iff_eq, beq_iff_eq]
      exact h
    rw [if_neg hb, if_neg h, zero_add]

theorem countB_append (xs ys : List BCell) (d b : String) :
    countB (xs ++ ys) d b = countB xs d b + countB ys d b := by
  rw [countB, countB, countB, List.filter_append, List.map_append, List.sum_append]

theorem countQ_cons (c : QCell) (rest : List QCell) (d b : String) :
    countQ (c :: rest) d b
      = (if c.difficulty = d ∧ c.blooms_level = b then c.count else 0) + countQ rest d b := by
  rw [countQ, countQ, List.filter_cons]
  by_cases h : c.difficulty = d ∧ c.blooms_level = b
  · have hb : (c.difficulty == d && c.blooms_level == b) = true := by
      rw [Bool.and_eq_true, beq_iff_eq, beq_iff_eq]
      exact h
    rw [if_pos hb, List.map_cons, List.sum_cons, if_pos h]
  · have hb : ¬ ((c.difficulty == d && c.blooms_level == b) = true) := by
      rw [Bool.and_eq_true, beq_iff_eq, beq_iff_eq]
      exact h
    rw [if_neg hb, if_neg h, zero_add]

theorem countQ_zero_diff (configs : List QCell) (d b : String)
    (h : ∀ c ∈ configs, c.difficulty ≠ d) : countQ configs d b = 0 := by
  induction configs with
  | nil => rfl
  | cons c cs ih =>
      rw [countQ_cons, if_neg (fun hx => h c (List.mem_cons_self c cs) hx.1),
        ih (fun x hx => h x (List.mem_cons_of_mem _ hx)), zero_add]

theorem countQ_zero_blooms (configs : List QCell) (d b : String)
    (h : ∀ c ∈ configs, c.blooms_level ≠ b) : countQ configs d b = 0 := by
  induction configs with
  | nil => rfl
  | cons c cs ih =>
      rw [countQ_cons, if_neg (fun hx => h c (List.mem_cons_self c cs) hx.2),
        ih (fun x hx => h x (List.mem_cons_of_mem _ hx)), zero_add]

theorem countB_row (p1 pfx : String) (cnt : String → Int) (B : List (String × ℚ))
    (hB : (B.map Prod.fst).Nodup) (d b : String) :
    countB (B.map (fun q => (⟨pfx ++ "_" ++ q.1, p1, q.1, cnt q.1⟩ : BCell))) d b
      = if p1 = d ∧ b ∈ B.map Prod.fst then cnt b else 0 := by
  induction B with
  | nil => simp [countB]
  | cons q qs ih =>
      rw [List.map_cons, countB_cons]
      have hqs : (qs.map Prod.fst).Nodup := by
        rw [List.map_cons] at hB
        exact (List.nodup_cons.mp hB).2
      rw [ih hqs]
      by_cases h1 : p1 = d
      · by_cases h2 : q.1 = b
        · have hb : b ∉ qs.map Prod.fst := by
            rw [List.map_cons] at hB
            rw [← h2]
            exact (List.nodup_cons.mp hB).1
          rw [if_pos ⟨h1, h2⟩, if_neg (fun hx => hb hx.2),
            if_pos ⟨h1, by rw [List.map_cons]; exact List.mem_cons.mpr (Or.inl h2.symm)⟩,
            add_zero, h2]
        · have hcond : (b ∈ (q :: qs).map Prod.fst) ↔ b ∈ qs.map Prod.fst := by
            rw [List.map_cons, List.mem_cons]
            constructor
            · rintro (hx | hx)
              · exact absurd hx.symm h2
              · exact hx
            · exact Or.inr
          rw [if_neg (fun hx => h2 hx.2)]
          by_cases h3 : b ∈ qs.map Prod.fst
          · rw [if_pos ⟨h1, h3⟩, if_pos ⟨h1, hcond.mpr h3⟩, zero_add]
          · rw [if_neg (fun hx => h3 hx.2), if_neg (fun hx => h3 (hcond.mp hx.2)), zero_add]
      · rw [if_neg (fun hx => h1 hx.1), if_neg (fun hx => h1 hx.1),
          if_neg (fun hx => h1 hx.1), zero_add]

theorem countB_flat (D B : List (String × ℚ)) (f : String → String → Int)
    (hD : (D.map Prod.fst).Nodup) (hB : (B.map Prod.fst).Nodup) (d b : String) :
    countB (D.flatMap (fun p => B.map (fun q =>
        (⟨p.1 ++ "_" ++ q.1, p.1, q.1, f p.1 q.1⟩ : BCell)))) d b
      = if d ∈ D.map Prod.fst ∧ b ∈ B.map Prod.fst then f d b else 0 := by
  induction D with
  | nil => simp [countB]
  | cons p ps ih =>
      rw [List.flatMap_cons, countB_append]
      have hps : (ps.map Prod.fst).Nodup := by
        rw [List.map_cons] at hD
        exact (List.nodup_cons.mp hD).2
      rw [ih hps, countB_row p.1 p.1 (f p.1) B hB]
      by_cases h1 : p.1 = d
      · have hd2 : d ∉ ps.map Prod.fst := by
          rw [List.map_cons] at hD
          rw [← h1]
          exact (List.nodup_cons.mp hD).1
        by_cases hb : b ∈ B.map Prod.fst
        · rw [if_pos ⟨h1, hb⟩, if_neg (fun hx => hd2 hx.1),
            if_pos ⟨by rw [List.map_cons]; exact List.mem_cons.mpr (Or.inl h1.symm), hb⟩,
            add_zero, h1]
        · rw [if_neg (fun hx => hb hx.2), if_neg (fun hx => hd2 hx.1),
            if_neg (fun hx => hb hx.2), add_zero]
      · have hcond : (d ∈ (p :: ps).map Prod.fst) ↔ d ∈ ps.map Prod.fst := by
          rw [List.map_cons, List.mem_cons]
          constructor
          · rintro (hx | hx)
            · exact absurd hx.symm h1
            · exact hx
          · exact Or.inr
        rw [if_neg (fun hx => h1 hx.1)]
        by_cases h3 : d ∈ ps.map Prod.fst ∧ b ∈ B.map Prod.fst
        · rw [if_pos h3, if_pos ⟨hcond.mpr h3.1, h3.2⟩, zero_add]
        · rw [if_neg h3, if_neg (fun hx => h3 ⟨hcond.mp hx.1, hx.2⟩), add_zero]

theorem totalCountB_append (xs ys : List BCell) :
    totalCountB (xs ++ ys) = totalCountB xs + totalCountB ys := by
  rw [totalCountB, totalCountB, totalCountB, List.map_append, List.sum_append]

theorem totalCountB_flat (D B : List (String × ℚ)) (f : String → String → Int) :
    totalCountB (D.flatMap (fun p => B.map (fun q =>
        (⟨p.1 ++ "_" ++ q.1, p.1, q.1, f p.1 q.1⟩ : BCell))))
      = (D.map (fun p => ((B.map (fun q => f p.1 q.1)).sum))).sum := by
  induction D with
  | nil => rfl
  | cons p ps ih =>
      rw [List.flatMap_cons, totalCountB_append, ih, List.map_cons, List.sum_cons]
      congr 1
      rw [totalCountB, List.map_map]
      rfl

theorem flatMap_congr_left {α β : Type _} (l : List α) (f g : α → List β)
    (h : ∀ x ∈ l, f x = g x) : l.flatMap f = l.flatMap g := by
  induction l with
  | nil => rfl
  | cons x xs ih =>
      rw [List.flatMap_cons, List.flatMap_cons, h x (List.mem_cons_self x xs),
        ih (fun y hy => h y (List.mem_cons_of_mem _ hy))]

theorem total_eq_T (configs : List QCell) (hT : 0 < totalForType configs)
    (hfact : ∀ p ∈ (derive_dists configs).1, ∀ q ∈ (derive_dists configs).2,
        qmul (qmul (qofInt (totalForType configs)) p.2) q.2
          = qofInt (countQ configs p.1 q.1)) :
    ((derive_dists configs).1.map (fun p =>
        (((derive_dists configs).2.map (fun q => countQ configs p.1 q.1)).sum))).sum
      = totalForType configs := by
  obtain ⟨hD1, hB1⟩ := derive_sumVals_one configs hT
  have key : ∀ p ∈ (derive_dists configs).1,
      (((((derive_dists configs).2.map (fun q => countQ configs p.1 q.1)).sum : Int)) : ℚ)
        = ((totalForType configs : Int) : ℚ) * p.2 := by
    intro p hp
    rw [list_sum_intCast, List.map_map]
    have hmap : (derive_dists configs).2.map
          ((fun n : Int => (n : ℚ)) ∘ (fun q => countQ configs p.1 q.1))
        = (derive_dists configs).2.map
            (fun q => (((totalForType configs : Int) : ℚ) * p.2) * q.2) := by
      apply List.map_congr_left
      intro q hq
      have h := hfact p hp q hq
      rw [qmul_eq, qmul_eq, qofInt_eq, qofInt_eq] at h
      exact h.symm
    rw [hmap, List.sum_map_mul_left ((derive_dists configs).2) (fun q => q.2)
      (((totalForType configs : Int) : ℚ) * p.2)]
    have hB1' : ((derive_dists configs).2.map (fun q => q.2)).sum = 1 := hB1
    rw [hB1', mul_one]
  have hcast : (((((derive_dists configs).1.map (fun p =>
        (((derive_dists configs).2.map (fun q => countQ configs p.1 q.1)).sum))).sum : Int)) : ℚ)
      = ((totalForType configs : Int) : ℚ) := by
    rw [list_sum_intCast, List.map_map]
    have hmap2 : (derive_dists configs).1.map
          ((fun n : Int => (n : ℚ)) ∘ (fun p =>
            (((derive_dists configs).2.map (fun q => countQ configs p.1 q.1)).sum)))
        = (derive_dists configs).1.map
            (fun p => ((totalForType configs : Int) : ℚ) * p.2) := by
      apply List.map_congr_left
      intro p hp
      exact key p hp
    rw [hmap2, List.sum_map_mul_left ((derive_dists configs).1) (fun p => p.2)
      ((totalForType configs : Int) : ℚ)]
    have hD1' : ((derive_dists configs).1.map (fun p => p.2)).sum = 1 := hD1
    rw [hD1', mul_one]
  exact Int.cast_injective hcast

/-- C8 (amended).  Re-deriving a type's local marginal distributions and
re-applying the per-type Allocator reproduces the grouped per-cell counts
**exactly when the grouped counts factorize into the product of their
marginals** — i.e. when, for every pair of a derived difficulty entry and a
derived blooms entry, `total × p × q` equals the grouped cell count (and
that count is positive), and the cross-product dict keys do not collide.
Without the factorization hypothesis the property fails by more than any
rounding slack, see the counterexample. -/
theorem claim_C8 (configs : List QCell)
    (hT : 0 < totalForType configs)
    (hfact : ∀ p ∈ (derive_dists configs).1, ∀ q ∈ (derive_dists configs).2,
        qmul (qmul (qofInt (totalForType configs)) p.2) q.2
          = qofInt (countQ configs p.1 q.1)
        ∧ 0 < countQ configs p.1 q.1)
    (hkeys : ((derive_dists configs).1.flatMap
        (fun p => (derive_dists configs).2.map (fun q => p.1 ++ "_" ++ q.1))).Nodup) :
    reproducesGroupedCounts configs := by
  have hDnd : ((derive_dists configs).1.map Prod.fst).Nodup :=
    (derive_fold_nodup (totalForType configs) configs ([], []) (by simp) (by simp)).1
  have hBnd : ((derive_dists configs).2.map Prod.fst).Nodup :=
    (derive_fold_nodup (totalForType configs) configs ([], []) (by simp) (by simp)).2
  have hcover : ∀ c ∈ configs,
      c.difficulty ∈ (derive_dists configs).1.map Prod.fst
      ∧ c.blooms_level ∈ (derive_dists configs).2.map Prod.fst :=
    fun c hc => derive_fold_cover (totalForType configs) configs ([], []) c hc
  have hpos : ∀ p ∈ (derive_dists configs).1, ∀ q ∈ (derive_dists configs).2,
      0 < pyRound (qmul (qmul (qofInt (totalForType configs)) p.2) q.2) := by
    intro p hp q hq
    rw [(hfact p hp q hq).1, pyRound_qofInt]
    exact (hfact p hp q hq).2
  have hbuild := outer_fold (totalForType configs) (derive_dists configs).2
    (derive_dists configs).1 [] hpos (by simpa using hkeys)
  rw [List.nil_append] at hbuild
  have hcells : (derive_dists configs).1.flatMap
        (fun p => (derive_dists configs).2.map (fun q =>
          (⟨p.1 ++ "_" ++ q.1, p.1, q.1,
            pyRound (qmul (qmul (qofInt (totalForType configs)) p.2) q.2)⟩ : BCell)))
      = (derive_dists configs).1.flatMap
        (fun p => (derive_dists configs).2.map (fun q =>
          (⟨p.1 ++ "_" ++ q.1, p.1, q.1, countQ configs p.1 q.1⟩ : BCell))) := by
    apply flatMap_congr_left
    intro p hp
    apply List.map_congr_left
    intro q hq
    rw [(hfact p hp q hq).1, pyRound_qofInt]
  rw [hcells] at hbuild
  have htot : totalCountB ((derive_dists configs).1.flatMap
        (fun p => (derive_dists configs).2.map (fun q =>
          (⟨p.1 ++ "_" ++ q.1, p.1, q.1, countQ configs p.1 q.1⟩ : BCell))))
      = totalForType configs := by
    rw [totalCountB_flat (derive_dists configs).1 (derive_dists configs).2
      (fun d b => countQ configs d b)]
    exact total_eq_T configs hT (fun p hp q hq => (hfact p hp q hq).1)
  have hqb : rederive_breakdown configs = Except.ok
      ((derive_dists configs).1.flatMap
        (fun p => (derive_dists configs).2.map (fun q =>
          (⟨p.1 ++ "_" ++ q.1, p.1, q.1, countQ configs p.1 q.1⟩ : BCell)))) := by
    rw [rederive_breakdown]
    simp only [question_breakdown]
    rw [hbuild, htot]
    simp
  refine ⟨_, hqb, fun d b => ?_⟩
  rw [countB_flat (derive_dists configs).1 (derive_dists configs).2
    (fun d b => countQ configs d b) hDnd hBnd]
  by_cases hd : d ∈ (derive_dists configs).1.map Prod.fst
  · by_cases hb : b ∈ (derive_dists configs).2.map Prod.fst
    · rw [if_pos ⟨hd, hb⟩]
    · rw [if_neg (fun hx => hb hx.2)]
      symm
      apply countQ_zero_blooms
      intro c hc hcb
      exact hb (hcb ▸ (hcover c hc).2)
  · rw [if_neg (fun hx => hd hx.1)]
    symm
    apply countQ_zero_diff
    intro c hc hcd
    exact hd (hcd ▸ (hcover c hc).1)

/-- Witness for C8: the product-form group `pConfigs` (one question per
cell of the 2×2 grid, total 4, all marginals 1/2) satisfies the
factorization hypotheses, and the re-application reproduces its counts. -/
theorem claim_C8_witness : reproducesGroupedCounts pConfigs :=
  claim_C8 pConfigs (by decide) (by decide) (by decide)

end QGen
